import Mathlib

/-!
# Verification development for the `ecs` package of Board-Labs/nakamo

A shallow embedding of `ecs/entity.go`, `ecs/component.go` and `ecs/world.go`,
and of the move generation, the movement system and the coordinate parsing of
`examples/chess`, together with the properties proved about them.

Conventions of the embedding.

* `Entity` is Go's `uint64` and `ComponentID` is Go's `uint32`; both are
  natural numbers here and every increment is reduced modulo `2^64`
  respectively `2^32` explicitly.
* A value of a Go `map[K]V` is a `GoMap`: the nil map, or a finite map with
  unique keys and no order that `make` returned. Reading the nil map is
  reading an empty map, `delete` on it does nothing, and a write to it panics.
  Where the source ranges over a map, the order of the iteration is a
  parameter of the embedded function, since Go leaves it unspecified.
* Methods with a pointer receiver take the receiver's state and return the
  new state (next to the method's result when it has one).
* A run-time panic is the result `none`: a history of calls ends at a panic,
  and the state in which the panic leaves the receiver is not modelled.
* Go's `int` is taken at 64 bits: an integer here, with every arithmetic
  result reduced by `wrapInt`. A `byte` is a `Fin 256` and byte subtraction is
  reduced modulo `2^8` explicitly.
-/

namespace Ecs

/-! ## entity.go -/

/-- Source: `type Entity uint64`. -/
abbrev Entity := Nat

/-- Number of values of a `uint64`. -/
def entityModulus : Nat := 2 ^ 64

/-- Source: `type EntityManager struct { currentID Entity; recycled []Entity }`. -/
structure EntityManager where
  currentID : Entity
  recycled : List Entity
  deriving DecidableEq, Repr

/-- Source: `NewEntityManager`. -/
def NewEntityManager : EntityManager :=
  { currentID := 0, recycled := [] }

namespace EntityManager

/-- Source: `EntityManager.Create`. Returns the entity and the manager afterwards.
The pool is a slice used as a stack whose top is the last element. -/
def Create (em : EntityManager) : Entity × EntityManager :=
  if h : em.recycled.length > 0 then
    let lastIdx := em.recycled.length - 1
    let entity := em.recycled.get ⟨lastIdx, Nat.sub_lt h Nat.one_pos⟩
    (entity, { em with recycled := em.recycled.take lastIdx })
  else
    let next := (em.currentID + 1) % entityModulus
    (next, { em with currentID := next })

/-- Source: `EntityManager.Destroy`. -/
def Destroy (em : EntityManager) (entity : Entity) : EntityManager :=
  { em with recycled := em.recycled ++ [entity] }

/-- Calls `Destroy` on each id of the list, from left to right. -/
def destroyAll (em : EntityManager) (ids : List Entity) : EntityManager :=
  ids.foldl Destroy em

/-- Calls `Create` `k` times; returns the ids in the order they were returned. -/
def createMany : Nat → EntityManager → List Entity × EntityManager
  | 0, em => ([], em)
  | k + 1, em =>
    let r := em.Create
    let rest := createMany k r.2
    (r.1 :: rest.1, rest.2)

end EntityManager

/-- A call on an entity manager. -/
inductive EMOp where
  | create
  | destroy (e : Entity)
  deriving DecidableEq, Repr

/-- An entity manager together with the bookkeeping of a caller: the ids that
are live (returned by `Create` and not destroyed since, most recent first) and
the number of `Create` calls that found the pool empty. -/
structure EMRun where
  em : EntityManager
  live : List Entity
  fresh : Nat
  deriving DecidableEq, Repr

/-- The run that starts at `NewEntityManager`. -/
def EMRun.start : EMRun :=
  { em := NewEntityManager, live := [], fresh := 0 }

/-- One call and its effect on the bookkeeping. -/
def EMRun.step (r : EMRun) : EMOp → EMRun
  | .create =>
    { em := r.em.Create.2
      live := r.em.Create.1 :: r.live
      fresh := if r.em.recycled.length > 0 then r.fresh else r.fresh + 1 }
  | .destroy e =>
    { em := r.em.Destroy e
      live := r.live.erase e
      fresh := r.fresh }

/-- The calls of the list, from left to right. -/
def EMRun.run (r : EMRun) (ops : List EMOp) : EMRun :=
  ops.foldl EMRun.step r

/-- Every `Destroy` of the list is applied to an id that is live at that moment. -/
def EMRun.disciplined : EMRun → List EMOp → Bool
  | _, [] => true
  | r, .create :: ops => EMRun.disciplined (r.step .create) ops
  | r, .destroy e :: ops => decide (e ∈ r.live) && EMRun.disciplined (r.step (.destroy e)) ops

/-! ## Go maps -/

/-- A value of the Go type `map[K]V`: the nil map, which is the zero value, or
a map that `make` returned, with its entries. -/
inductive GoMap (K V : Type) where
  | nil
  | made (entries : Finmap (fun _ : K => V))

namespace GoMap

variable {K V : Type}

/-- The entries of the map; the nil map has none. -/
def entries : GoMap K V → Finmap (fun _ : K => V)
  | .nil => ∅
  | .made es => es

/-- Whether the map is the nil map. -/
def isNil : GoMap K V → Bool
  | .nil => true
  | .made _ => false

/-- The result of `make(map[K]V)`. -/
def make : GoMap K V :=
  .made ∅

instance : Membership K (GoMap K V) :=
  ⟨fun m k => k ∈ m.entries⟩

instance [DecidableEq K] (k : K) (m : GoMap K V) : Decidable (k ∈ m) :=
  inferInstanceAs (Decidable (k ∈ m.entries))

/-- The key set of the map. -/
def keys (m : GoMap K V) : Finset K :=
  m.entries.keys

/-- The read `v, ok := m[k]`; the nil map answers like an empty map. -/
def lookup [DecidableEq K] (m : GoMap K V) (k : K) : Option V :=
  m.entries.lookup k

/-- The map that the write `m[k] = v` leaves when it does not panic, that is,
on a map that is not nil: what `insert` returns there. -/
def put [DecidableEq K] (m : GoMap K V) (k : K) (v : V) : GoMap K V :=
  .made (m.entries.insert k v)

/-- The write `m[k] = v`: it panics on the nil map ("assignment to entry in
nil map"), which is the result `none`. -/
def insert [DecidableEq K] (m : GoMap K V) (k : K) (v : V) : Option (GoMap K V) :=
  match m with
  | .nil => none
  | .made es => some (.made (es.insert k v))

/-- The call `delete(m, k)`; on the nil map it does nothing. -/
def erase [DecidableEq K] (m : GoMap K V) (k : K) : GoMap K V :=
  match m with
  | .nil => .nil
  | .made es => .made (es.erase k)

end GoMap

instance {K V : Type} [DecidableEq K] [DecidableEq V] : DecidableEq (GoMap K V) :=
  fun a b =>
    match a, b with
    | .nil, .nil => isTrue rfl
    | .nil, .made _ => isFalse (fun h => GoMap.noConfusion h)
    | .made _, .nil => isFalse (fun h => GoMap.noConfusion h)
    | .made x, .made y =>
      if h : x = y then isTrue (by rw [h])
      else isFalse (fun h1 => h (GoMap.made.inj h1))

/-! ## component.go: Storage -/

/-- Source: `type Storage[T any] struct { components map[Entity]T }`. The
type is exported, so a storage is either made by `NewStorage` or is the zero
value of the struct, whose map is the nil map. -/
structure Storage (T : Type) where
  components : GoMap Entity T

/-- Source: `NewStorage`. -/
def NewStorage {T : Type} : Storage T :=
  { components := GoMap.make }

/-- The zero value `Storage[T]{}` of the struct: its map is the nil map. -/
def Storage.zero {T : Type} : Storage T :=
  { components := GoMap.nil }

/-- The error of `Storage.Get`, built by
`fmt.Errorf("entity %d does not have component %T", entity, zero)`:
it carries the entity id; the type it names is the `T` of the storage. -/
structure NotFoundError where
  entity : Entity
  deriving DecidableEq, Repr

namespace Storage

variable {T : Type}

/-- Source: `Storage.Add`. The write panics on the nil map of a zero-value
storage, which is the result `none`; otherwise the result is the storage
afterwards. -/
def Add (s : Storage T) (entity : Entity) (component : T) : Option (Storage T) :=
  match s.components.insert entity component with
  | none => none
  | some components => some { components := components }

/-- Source: `Storage.Get`. The result is the Go pair `(T, error)` (`none` is the
nil error, `default` the zero value of `T`), paired with the storage after the
call. -/
def Get [Inhabited T] (s : Storage T) (entity : Entity) : (T × Option NotFoundError) × Storage T :=
  match s.components.lookup entity with
  | some component => ((component, none), s)
  | none => ((default, some { entity := entity }), s)

/-- Source: `Storage.GetAll`. -/
def GetAll (s : Storage T) : GoMap Entity T :=
  s.components

/-- Source: `Storage.Has`. -/
def Has (s : Storage T) (entity : Entity) : Bool :=
  (s.components.lookup entity).isSome

/-- Source: `Storage.Remove`. -/
def Remove (s : Storage T) (entity : Entity) : Storage T :=
  { components := s.components.erase entity }

/-- Source: `Storage.Clear`. -/
def Clear (_s : Storage T) : Storage T :=
  { components := GoMap.make }

end Storage

/-- A call that writes to a storage. -/
inductive StorageOp (T : Type) where
  | add (e : Entity) (v : T)
  | remove (e : Entity)
  | clear

/-- The effect of one writing call; `none` when the call panics. -/
def Storage.apply {T : Type} (s : Storage T) : StorageOp T → Option (Storage T)
  | .add e v => s.Add e v
  | .remove e => some (s.Remove e)
  | .clear => some s.Clear

/-- The writing calls of the list, from left to right; `none` when one of them
panics. -/
def Storage.applyAll {T : Type} (s : Storage T) : List (StorageOp T) → Option (Storage T)
  | [] => some s
  | op :: ops =>
    match s.apply op with
    | none => none
    | some s1 => s1.applyAll ops

/-- Specification side of "the value most recently added for `e`": read a
history of writing calls, most recent call first. The first call that concerns
`e` decides: an `add e v` gives `v`, a `remove e` or a `clear` gives nothing.
When no call concerns `e` the answer is `init`, the entry before the history. -/
def mostRecentlyAdded {T : Type} (init : Option T) (e : Entity) : List (StorageOp T) → Option T
  | [] => init
  | .add e1 v :: older => if e1 = e then some v else mostRecentlyAdded init e older
  | .remove e1 :: older => if e1 = e then none else mostRecentlyAdded init e older
  | .clear :: _ => none

/-! ## component.go: ComponentRegistry -/

/-- Source: `type ComponentID uint32`. -/
abbrev ComponentID := Nat

/-- Number of values of a `uint32`. -/
def componentIDModulus : Nat := 2 ^ 32

/-- Go types as far as `reflect.Type.Elem` distinguishes them. `base` stands
for a type whose kind has no element type (bool, numeric, string, struct, func,
interface); `defined` is a type made by a type declaration, with its
underlying type, and is identified by its name; `storage T` is the
instantiation `Storage[T]` of the generic struct type of this package. -/
inductive GoType where
  | base (name : String)
  | ptr (elem : GoType)
  | slice (elem : GoType)
  | array (len : Nat) (elem : GoType)
  | map (key : GoType) (elem : GoType)
  | chan (elem : GoType)
  | defined (name : String) (underlying : GoType)
  | storage (T : GoType)
  deriving DecidableEq, Repr

/-- Library `reflect`, `Type.Elem`: "Elem returns a type's element type. It
panics if the type's Kind is not Array, Chan, Map, Pointer, or Slice." The kind
of a defined type is the kind of its underlying type; `Storage[T]` is a struct. -/
def GoType.Elem : GoType → Option GoType
  | .base _ => none
  | .ptr elem => some elem
  | .slice elem => some elem
  | .array _ elem => some elem
  | .map _ elem => some elem
  | .chan elem => some elem
  | .defined _ underlying => underlying.Elem
  | .storage _ => none

/-- Types whose method set can hold `Has`, `Remove` and `Clear`, so that their
values can be passed as a `ComponentStorage`: `*Storage[T]` (the methods of
`Storage[T]` have pointer receivers), a defined type whose underlying type is
neither a pointer nor an interface (methods with value receivers), and a
pointer to such a defined type. -/
def GoType.canImplement : GoType → Bool
  | .ptr (.storage _) => true
  | .defined _ (.ptr _) => false
  | .defined _ _ => true
  | .ptr (.defined _ (.ptr _)) => false
  | .ptr (.defined _ _) => true
  | _ => false

/-- A non-nil value of the interface type `ComponentStorage`: its dynamic type
and the address of the object it refers to. -/
structure StorageRef where
  dynType : GoType
  addr : Nat
  deriving DecidableEq, Repr

/-- A value of the interface type `ComponentStorage`; `none` is the nil
interface value. -/
abbrev ComponentStorage := Option StorageRef

/-- Library `reflect`, `TypeOf`: the dynamic type of the value, and the nil
`Type` for a nil interface value. -/
def reflectTypeOf (storage : ComponentStorage) : Option GoType :=
  storage.map StorageRef.dynType

/-- Source: `type ComponentRegistry struct`. `Register` is the only writer of
`storages` and stores only values whose dynamic type it has read, so the
handles of the map are non-nil. The type is exported, so a registry is either
made by `NewComponentRegistry` or is the zero value of the struct, whose maps
are nil maps. -/
structure ComponentRegistry where
  nextID : ComponentID
  components : GoMap GoType ComponentID
  storages : GoMap ComponentID StorageRef
  deriving DecidableEq

/-- Source: `NewComponentRegistry`. -/
def NewComponentRegistry : ComponentRegistry :=
  { nextID := 0, components := GoMap.make, storages := GoMap.make }

/-- The zero value `ComponentRegistry{}` of the struct: both maps are nil. -/
def ComponentRegistry.zero : ComponentRegistry :=
  { nextID := 0, components := GoMap.nil, storages := GoMap.nil }

/-- The objects that storage handles refer to, by address. The values of all
storages are taken from one type `V`, the sum of the component types of the
program; which of them a storage holds is fixed by its dynamic type. -/
abbrev Heap (V : Type) := Nat → Storage V

namespace ComponentRegistry

/-- Source: `ComponentRegistry.Register`. The result is `none` when the call
panics: `reflect.TypeOf(storage)` is the nil `Type` for a nil interface value,
on which the call of `Elem` panics; `Elem` itself panics on a type without
element type; and each of the two writes panics when its map is the nil map.
Otherwise the result is the id and the registry afterwards. -/
def Register (r : ComponentRegistry) (storage : ComponentStorage) :
    Option (ComponentID × ComponentRegistry) :=
  match storage with
  | none => none
  | some ref =>
    match ref.dynType.Elem with
    | none => none
    | some storageType =>
      match r.components.lookup storageType with
      | some id => some (id, r)
      | none =>
        let id := r.nextID
        match r.components.insert storageType id with
        | none => none
        | some components =>
          match r.storages.insert id ref with
          | none => none
          | some storages =>
            some (id,
              { nextID := (r.nextID + 1) % componentIDModulus
                components := components
                storages := storages })

/-- Source: `ComponentRegistry.GetStorage`; `none` is the pair `(nil, false)`. -/
def GetStorage (r : ComponentRegistry) (id : ComponentID) : Option StorageRef :=
  r.storages.lookup id

/-- The list names every key of the map exactly once: an order in which a
`range` over the map may visit it. -/
def rangeOrder (r : ComponentRegistry) (order : List ComponentID) : Prop :=
  order.Nodup ∧ order.toFinset = r.storages.keys

instance (r : ComponentRegistry) (order : List ComponentID) : Decidable (r.rangeOrder order) :=
  inferInstanceAs (Decidable (_ ∧ _))

/-- Source: `ComponentRegistry.Clear`, the `range` visiting the keys in the
given order. Returns the registry and the heap afterwards. -/
def Clear {V : Type} (r : ComponentRegistry) (order : List ComponentID) (heap : Heap V) :
    ComponentRegistry × Heap V :=
  (r, order.foldl (fun h id =>
    match r.storages.lookup id with
    | none => h
    | some ref => Function.update h ref.addr (h ref.addr).Clear) heap)

end ComponentRegistry

/-- The key under which `Register` files a storage: the element type of its
dynamic type, when there is one. -/
def typeKey (storage : ComponentStorage) : Option GoType :=
  (reflectTypeOf storage).bind GoType.Elem

/-- A call on a registry. -/
inductive RegOp where
  | register (storage : ComponentStorage)
  | clear (order : List ComponentID)

/-- A registry and the heap of storage objects, together with the bookkeeping
of an observer: the ids that `Register` has returned (most recent first) and
the number of `Register` calls that allocated a new id. -/
structure RegRun (V : Type) where
  reg : ComponentRegistry
  heap : Heap V
  issued : List ComponentID
  fresh : Nat

/-- The run that starts at `NewComponentRegistry`. -/
def RegRun.start {V : Type} (heap : Heap V) : RegRun V :=
  { reg := NewComponentRegistry, heap := heap, issued := [], fresh := 0 }

/-- One call; `none` when the call panics. -/
def RegRun.step {V : Type} (s : RegRun V) : RegOp → Option (RegRun V)
  | .register storage =>
    match s.reg.Register storage with
    | none => none
    | some (id, r) =>
      some { reg := r, heap := s.heap, issued := id :: s.issued,
             fresh := if (typeKey storage).any (fun k => (s.reg.components.lookup k).isSome)
               then s.fresh else s.fresh + 1 }
  | .clear order =>
    some { reg := (s.reg.Clear order s.heap).1, heap := (s.reg.Clear order s.heap).2,
           issued := s.issued, fresh := s.fresh }

/-- The calls of the list, from left to right; `none` when one of them panics. -/
def RegRun.run {V : Type} (s : RegRun V) : List RegOp → Option (RegRun V)
  | [] => some s
  | op :: ops =>
    match s.step op with
    | none => none
    | some s1 => s1.run ops

/-- The pointer type `*Storage[[i]Unit]`, where `Unit` is a defined empty
struct type: one type for each `i`. -/
def GoType.numbered (i : Nat) : GoType :=
  .ptr (.storage (.array i (.base "game.Unit")))

/-- Registers a new storage of type `*Storage[[i]Unit]` for each `i < n`, in
increasing order. -/
def registerNumbered (n : Nat) : List RegOp :=
  (List.range n).map (fun i => RegOp.register (some { dynType := GoType.numbered i, addr := i }))

/-- The heap in which every storage is empty. -/
def emptyHeap {V : Type} : Heap V :=
  fun _ => NewStorage

/-- The registered handle of one of the listed ids points to address `a`. -/
def visits (m : GoMap ComponentID StorageRef) (order : List ComponentID)
    (a : Nat) : Prop :=
  ∃ id ref, id ∈ order ∧ m.lookup id = some ref ∧ ref.addr = a

/-! ## world.go -/

/-- Source: `type System interface { Update(dt float64) }`. A system is known
by what its `Update` does to the state `σ` it works on (the storages it holds
and its own fields); `D` is the type of `dt`, which the world only hands on. -/
structure System (D : Type) (σ : Type) where
  Update : D → σ → σ

/-- Source: `type World struct`. -/
structure World (D : Type) (σ : Type) where
  entities : EntityManager
  components : ComponentRegistry
  systems : List (System D σ)

/-- Source: `NewWorld`. -/
def NewWorld {D σ : Type} : World D σ :=
  { entities := NewEntityManager, components := NewComponentRegistry, systems := [] }

namespace World

variable {D σ V : Type}

/-- Source: `World.CreateEntity`. -/
def CreateEntity (w : World D σ) : Entity × World D σ :=
  (w.entities.Create.1, { w with entities := w.entities.Create.2 })

/-- Source: `World.DestroyEntity`, the `range` over `w.components.storages`
visiting the keys in the given order. -/
def DestroyEntity (w : World D σ) (order : List ComponentID) (heap : Heap V) (entity : Entity) :
    World D σ × Heap V :=
  ({ w with entities := w.entities.Destroy entity },
    order.foldl (fun h id =>
      match w.components.storages.lookup id with
      | none => h
      | some ref =>
        if (h ref.addr).Has entity then Function.update h ref.addr ((h ref.addr).Remove entity)
        else h) heap)

/-- Source: `World.RegisterStorage`. -/
def RegisterStorage (w : World D σ) (storage : ComponentStorage) :
    Option (ComponentID × World D σ) :=
  match w.components.Register storage with
  | none => none
  | some (id, r) => some (id, { w with components := r })

/-- Source: `World.AddSystem`. -/
def AddSystem (w : World D σ) (system : System D σ) : World D σ :=
  { w with systems := w.systems ++ [system] }

/-- The loop of `World.Update` over the systems still to run. -/
def runSystems (dt : D) : List (System D σ) → σ → σ
  | [], st => st
  | system :: rest, st => runSystems dt rest (system.Update dt st)

/-- Source: `World.Update`. Returns the world and the state afterwards. -/
def Update (w : World D σ) (dt : D) (st : σ) : World D σ × σ :=
  (w, runSystems dt w.systems st)

/-- Source: `World.Clear`. -/
def Clear (w : World D σ) (order : List ComponentID) (heap : Heap V) : World D σ × Heap V :=
  ({ w with components := (w.components.Clear order heap).1, systems := [] },
    (w.components.Clear order heap).2)

/-- Source: `World.GetStorage`. -/
def GetStorage (w : World D σ) (id : ComponentID) : Option StorageRef :=
  w.components.GetStorage id

/-- Calls `AddSystem` for each system of the list, from left to right. -/
def addSystems (w : World D σ) (systems : List (System D σ)) : World D σ :=
  systems.foldl AddSystem w

end World

/-! ## Instrumented systems -/

/-- The system that does to the state what `system` does and, next to it,
appends its index `i` and the `dt` it was called with to a log of calls. -/
def System.logged {D σ : Type} (i : Nat) (system : System D σ) :
    System D (σ × List (Nat × D)) :=
  { Update := fun dt st => (system.Update dt st.1, st.2 ++ [(i, dt)]) }

/-- The systems of the list, instrumented with the indices `i`, `i+1`, ... -/
def loggedFrom {D σ : Type} : Nat → List (System D σ) → List (System D (σ × List (Nat × D)))
  | _, [] => []
  | i, system :: rest => system.logged i :: loggedFrom (i + 1) rest

/-! ## Histories of a world -/

/-- A call on a world or on one of its registered storages. `add id e v` and
`remove id e` are `Add(e, v)` and `Remove(e)` on the storage that is registered
under `id`. The `range` loops carry the order in which they visit the map. -/
inductive WorldOp (V : Type) where
  | registerStorage (storage : ComponentStorage)
  | createEntity
  | destroyEntity (order : List ComponentID) (e : Entity)
  | clear (order : List ComponentID)
  | add (id : ComponentID) (e : Entity) (v : V)
  | remove (id : ComponentID) (e : Entity)

/-- A world and the heap of storage objects, together with the bookkeeping of
a caller: the live entities (returned by `CreateEntity` and not destroyed
since) and the number of `CreateEntity` calls that found the pool empty. -/
structure WorldRun (D σ V : Type) where
  world : World D σ
  heap : Heap V
  live : List Entity
  fresh : Nat

namespace WorldRun

variable {D σ V : Type}

/-- The run that starts at `NewWorld`. -/
def start (heap : Heap V) : WorldRun D σ V :=
  { world := NewWorld, heap := heap, live := [], fresh := 0 }

/-- One call; `none` when the call panics. -/
def step (s : WorldRun D σ V) : WorldOp V → Option (WorldRun D σ V)
  | .registerStorage storage =>
    match s.world.RegisterStorage storage with
    | none => none
    | some (_, w) => some { s with world := w }
  | .createEntity =>
    some { world := s.world.CreateEntity.2
           heap := s.heap
           live := s.world.CreateEntity.1 :: s.live
           fresh := if s.world.entities.recycled.length > 0 then s.fresh else s.fresh + 1 }
  | .destroyEntity order e =>
    some { world := (s.world.DestroyEntity order s.heap e).1
           heap := (s.world.DestroyEntity order s.heap e).2
           live := s.live.erase e
           fresh := s.fresh }
  | .clear order =>
    some { s with world := (s.world.Clear order s.heap).1, heap := (s.world.Clear order s.heap).2 }
  | .add id e v =>
    match s.world.GetStorage id with
    | none => some s
    | some ref =>
      match (s.heap ref.addr).Add e v with
      | none => none
      | some storage => some { s with heap := Function.update s.heap ref.addr storage }
  | .remove id e =>
    match s.world.GetStorage id with
    | none => some s
    | some ref => some { s with heap := Function.update s.heap ref.addr ((s.heap ref.addr).Remove e) }

/-- The provisos on a call: a storage is registered while it is empty, a
component is added to a registered storage and for a live entity, `Remove` is
called on a registered storage, `DestroyEntity` is applied to a live entity,
and a `range` visits every key once. -/
def admits (s : WorldRun D σ V) : WorldOp V → Bool
  | .registerStorage storage =>
    match storage with
    | none => true
    | some ref => decide ((s.heap ref.addr).components.keys = ∅)
  | .createEntity => true
  | .destroyEntity order e => decide (e ∈ s.live) && decide (s.world.components.rangeOrder order)
  | .clear order => decide (s.world.components.rangeOrder order)
  | .add id e _ => decide (id ∈ s.world.components.storages) && decide (e ∈ s.live)
  | .remove id _ => decide (id ∈ s.world.components.storages)

/-- The calls of the list, from left to right; `none` when one of them panics
or does not meet the provisos. -/
def run (s : WorldRun D σ V) : List (WorldOp V) → Option (WorldRun D σ V)
  | [] => some s
  | op :: ops =>
    if s.admits op then
      match s.step op with
      | none => none
      | some s1 => s1.run ops
    else none

/-- The value of the bookkeeping counter after one more `CreateEntity`. -/
def freshAfterCreate (s : WorldRun D σ V) : Nat :=
  if s.world.entities.recycled.length > 0 then s.fresh else s.fresh + 1

end WorldRun

/-- No registered storage holds an entry for an entity that is not live. -/
def WorldRun.Clean {D σ V : Type} (s : WorldRun D σ V) : Prop :=
  ∀ (id : ComponentID) (ref : StorageRef) (e : Entity),
    s.world.components.storages.lookup id = some ref →
    (s.heap ref.addr).Has e = true → e ∈ s.live

/-- The entity manager of the world with the caller's bookkeeping. -/
def WorldRun.toEMRun {D σ V : Type} (s : WorldRun D σ V) : EMRun :=
  { em := s.world.entities, live := s.live, fresh := s.fresh }

/-! ## Histories of an entity manager with repeated destroys -/

/-- An entity manager together with the record of an observer: every id that
`Create` has returned (most recent first) and the number of `Create` calls that
found the pool empty. -/
structure EMLog where
  em : EntityManager
  issued : List Entity
  fresh : Nat
  deriving DecidableEq, Repr

/-- The record that starts at `NewEntityManager`. -/
def EMLog.start : EMLog :=
  { em := NewEntityManager, issued := [], fresh := 0 }

/-- One call and its effect on the record. -/
def EMLog.step (r : EMLog) : EMOp → EMLog
  | .create =>
    { em := r.em.Create.2
      issued := r.em.Create.1 :: r.issued
      fresh := if r.em.recycled.length > 0 then r.fresh else r.fresh + 1 }
  | .destroy e =>
    { em := r.em.Destroy e
      issued := r.issued
      fresh := r.fresh }

/-- The calls of the list, from left to right. -/
def EMLog.run (r : EMLog) (ops : List EMOp) : EMLog :=
  ops.foldl EMLog.step r

/-- Every `Destroy` of the list is applied to an id that `Create` has returned
before; the id may have been destroyed already. -/
def EMLog.permitted : EMLog → List EMOp → Bool
  | _, [] => true
  | r, .create :: ops => EMLog.permitted (r.step .create) ops
  | r, .destroy e :: ops => decide (e ∈ r.issued) && EMLog.permitted (r.step (.destroy e)) ops

/-- The maximum of a list of ids, 0 for the empty list. -/
def maxIssued (ids : List Entity) : Entity :=
  ids.foldr max 0

/-! ## examples/chess: components.go -/

/-- Number of values of a Go `int`, taken at 64 bits. -/
def intModulus : Int := 18446744073709551616

/-- The value of type `int` that an arithmetic result denotes: the result is
reduced modulo `2^64` into the range from `-2^63` to `2^63 - 1`. -/
def wrapInt (z : Int) : Int :=
  (z + 9223372036854775808) % intModulus - 9223372036854775808

/-- Source: `type Position struct { X, Y int }`. -/
structure Position where
  X : Int
  Y : Int
  deriving DecidableEq, Repr

instance : Inhabited Position := ⟨{ X := 0, Y := 0 }⟩

/-- Source: `type PositionComponent struct { Pos Position }`. -/
structure PositionComponent where
  Pos : Position
  deriving DecidableEq, Repr

instance : Inhabited PositionComponent := ⟨{ Pos := { X := 0, Y := 0 } }⟩

/-- Source: `type PieceType int`. -/
abbrev PieceType := Int

/-- Source: `Pawn PieceType = iota`. -/
def Pawn : PieceType := 0

/-- Source: `Knight`, the constant 1. -/
def Knight : PieceType := 1

/-- Source: `Bishop`, the constant 2. -/
def Bishop : PieceType := 2

/-- Source: `Rook`, the constant 3. -/
def Rook : PieceType := 3

/-- Source: `Queen`, the constant 4. -/
def Queen : PieceType := 4

/-- Source: `King`, the constant 5. -/
def King : PieceType := 5

/-- Source: `type Color int`. -/
abbrev Color := Int

/-- Source: `White Color = iota`. -/
def White : Color := 0

/-- Source: `Black`, the constant 1. -/
def Black : Color := 1

/-- Source: `type PieceComponent struct { Type PieceType; Color Color }`; the
field `Type` is `Typ` here. -/
structure PieceComponent where
  Typ : PieceType
  Color : Color
  deriving DecidableEq, Repr

instance : Inhabited PieceComponent := ⟨{ Typ := 0, Color := 0 }⟩

/-- Source: `type MovementComponent struct { PossibleMoves []Position }`. -/
structure MovementComponent where
  PossibleMoves : List Position
  deriving DecidableEq, Repr

instance : Inhabited MovementComponent := ⟨{ PossibleMoves := [] }⟩

/-- Source: `type SelectableComponent struct { Selected bool }`. -/
structure SelectableComponent where
  Selected : Bool
  deriving DecidableEq, Repr

instance : Inhabited SelectableComponent := ⟨{ Selected := false }⟩

/-- Source: `type Components struct`. The four fields point to four storages
of four different types, made by `NewComponents`; the state of the struct is
the state of the four. -/
structure Components where
  Positions : Storage PositionComponent
  Pieces : Storage PieceComponent
  Movements : Storage MovementComponent
  Selectable : Storage SelectableComponent

/-- Source: `isValidPosition`. -/
def isValidPosition (pos : Position) : Bool :=
  decide (pos.X ≥ 0) && decide (pos.X < 8) && decide (pos.Y ≥ 0) && decide (pos.Y < 8)

/-- The nested loops of the bishop, rook and queen cases: for each direction
in order, for `i` from 1 to 7, the square `i` steps away is appended when it
is valid. -/
def slide (pos : PositionComponent) (directions : List Position) : List Position :=
  directions.flatMap (fun dir =>
    ((List.range' 1 7).map (fun (i : Nat) =>
      ({ X := wrapInt (pos.Pos.X + wrapInt (dir.X * i))
         Y := wrapInt (pos.Pos.Y + wrapInt (dir.Y * i)) } : Position))).filter isValidPosition)

/-- The loop of the king case: for each direction in order, the neighbouring
square is appended when it is valid. -/
def stepOnce (pos : PositionComponent) (directions : List Position) : List Position :=
  (directions.map (fun dir =>
    ({ X := wrapInt (pos.Pos.X + dir.X), Y := wrapInt (pos.Pos.Y + dir.Y) } : Position))).filter
      isValidPosition

/-- Source: `calculatePossibleMoves`. The `switch` on `piece.Type` is the chain
of tests against the six constants; no case matches any other value. -/
def calculatePossibleMoves (piece : PieceComponent) (pos : PositionComponent) : List Position :=
  if piece.Typ = Pawn then
    let direction : Int := if piece.Color = Black then -1 else 1
    let newPos : Position := { X := pos.Pos.X, Y := wrapInt (pos.Pos.Y + direction) }
    if isValidPosition newPos then
      if (piece.Color = White ∧ pos.Pos.Y = 1) ∨ (piece.Color = Black ∧ pos.Pos.Y = 6) then
        [newPos, { X := pos.Pos.X, Y := wrapInt (pos.Pos.Y + wrapInt (2 * direction)) }]
      else [newPos]
    else []
  else if piece.Typ = Knight then
    ([ { X := wrapInt (pos.Pos.X + 2), Y := wrapInt (pos.Pos.Y + 1) },
       { X := wrapInt (pos.Pos.X + 2), Y := wrapInt (pos.Pos.Y - 1) },
       { X := wrapInt (pos.Pos.X - 2), Y := wrapInt (pos.Pos.Y + 1) },
       { X := wrapInt (pos.Pos.X - 2), Y := wrapInt (pos.Pos.Y - 1) },
       { X := wrapInt (pos.Pos.X + 1), Y := wrapInt (pos.Pos.Y + 2) },
       { X := wrapInt (pos.Pos.X + 1), Y := wrapInt (pos.Pos.Y - 2) },
       { X := wrapInt (pos.Pos.X - 1), Y := wrapInt (pos.Pos.Y + 2) },
       { X := wrapInt (pos.Pos.X - 1), Y := wrapInt (pos.Pos.Y - 2) } ] : List Position).filter
      isValidPosition
  else if piece.Typ = Bishop then
    slide pos [ { X := 1, Y := 1 }, { X := 1, Y := -1 }, { X := -1, Y := 1 }, { X := -1, Y := -1 } ]
  else if piece.Typ = Rook then
    slide pos [ { X := 0, Y := 1 }, { X := 0, Y := -1 }, { X := 1, Y := 0 }, { X := -1, Y := 0 } ]
  else if piece.Typ = Queen then
    slide pos [ { X := 0, Y := 1 }, { X := 0, Y := -1 }, { X := 1, Y := 0 }, { X := -1, Y := 0 },
                { X := 1, Y := 1 }, { X := 1, Y := -1 }, { X := -1, Y := 1 }, { X := -1, Y := -1 } ]
  else if piece.Typ = King then
    stepOnce pos [ { X := 0, Y := 1 }, { X := 0, Y := -1 }, { X := 1, Y := 0 }, { X := -1, Y := 0 },
                   { X := 1, Y := 1 }, { X := 1, Y := -1 }, { X := -1, Y := 1 }, { X := -1, Y := -1 } ]
  else []

/-- The body of the loop of `MovementSystem.Update` for one entity; `none`
when the `Add` panics. -/
def MovementSystem.visit (c : Components) (entity : Entity) : Option Components :=
  let piece := (c.Pieces.Get entity).1.1
  let pieces := (c.Pieces.Get entity).2
  let pos := (c.Positions.Get entity).1.1
  let positions := (c.Positions.Get entity).2
  let moves := calculatePossibleMoves piece pos
  let movements := if c.Movements.Has entity then c.Movements.Remove entity else c.Movements
  match movements.Add entity { PossibleMoves := moves } with
  | none => none
  | some added =>
    some { Positions := positions, Pieces := pieces, Movements := added
           Selectable := c.Selectable }

/-- The loop of `MovementSystem.Update` over the entities still to visit. -/
def MovementSystem.visitAll (c : Components) : List Entity → Option Components
  | [] => some c
  | entity :: rest =>
    match MovementSystem.visit c entity with
    | none => none
    | some c1 => MovementSystem.visitAll c1 rest

/-- The list names every key of `Pieces` exactly once: an order in which the
`range` over `Pieces.GetAll()` may visit the entities. -/
def Components.rangeOrder (c : Components) (order : List Entity) : Prop :=
  order.Nodup ∧ order.toFinset = c.Pieces.GetAll.keys

instance (c : Components) (order : List Entity) : Decidable (c.rangeOrder order) :=
  inferInstanceAs (Decidable (_ ∧ _))

/-- Source: `MovementSystem.Update`, the `range` over `Pieces.GetAll()`
visiting the entities in the given order; `dt` is not used. The result is
`none` when the call panics. -/
def MovementSystem.Update {D : Type} (c : Components) (order : List Entity) (_dt : D) :
    Option Components :=
  MovementSystem.visitAll c order

/-! ## examples/chess: game.go -/

/-- A byte of a Go string. -/
abbrev Byte := Fin 256

/-- Subtraction of two bytes in the type `byte`: the difference modulo `2^8`. -/
def subByte (a b : Nat) : Nat :=
  (a + 256 - b) % 256

/-- Source: `parsePosition`; the string is the list of its bytes, and the
constants are the bytes of the characters `a` and `1`. -/
def parsePosition (s : List Byte) : Position :=
  if s.length ≠ 2 then { X := -1, Y := -1 }
  else
    let file : Int := (subByte (s.getD 0 0).val 'a'.toNat : Nat)
    let rank : Int := (subByte (s.getD 1 0).val '1'.toNat : Nat)
    { X := file, Y := rank }

/-- The byte of an ASCII character. -/
def asciiByte (c : Char) : Byte :=
  ⟨c.toNat % 256, Nat.mod_lt _ (by decide)⟩

/-! ## Invariants -/

/-- What holds of a run in which only live ids are destroyed and the counter
has not wrapped: the counter counts the fresh allocations, live ids and pooled
ids are each without repetition and disjoint, and all of them lie in
`1..currentID`. -/
structure EMRun.Inv (r : EMRun) : Prop where
  counter : r.em.currentID = r.fresh
  live_nodup : r.live.Nodup
  pool_nodup : r.em.recycled.Nodup
  disjoint : ∀ x, x ∈ r.live → x ∉ r.em.recycled
  bound : ∀ x, x ∈ r.live ∨ x ∈ r.em.recycled → 1 ≤ x ∧ x ≤ r.em.currentID

/-- What holds of a registry run as long as the `uint32` counter has not
wrapped: the counter counts the allocations, the type-to-ID map is injective,
its image, the key set of the ID-to-handle map and the set of ids returned
so far are all `{0, ..., nextID-1}`, and neither map is nil. -/
structure RegRun.Inv {V : Type} (s : RegRun V) : Prop where
  counter : s.reg.nextID = s.fresh
  inj : ∀ (t1 t2 : GoType) (id : ℕ), s.reg.components.lookup t1 = some id →
    s.reg.components.lookup t2 = some id → t1 = t2
  image : ∀ id : ℕ, (∃ t, s.reg.components.lookup t = some id) ↔ id < s.reg.nextID
  keys : ∀ id : ℕ, id ∈ s.reg.storages ↔ id < s.reg.nextID
  issued : ∀ id : ℕ, id ∈ s.issued ↔ id < s.reg.nextID
  made : s.reg.components.isNil = false ∧ s.reg.storages.isNil = false

/-- What holds of a record in which only issued ids are destroyed and the
counter has not wrapped: the counter counts the fresh allocations, every issued
and every pooled id lies in `1..currentID`, and the counter is 0 or an issued
id. -/
structure EMLog.Inv (r : EMLog) : Prop where
  counter : r.em.currentID = r.fresh
  bound : ∀ x, x ∈ r.issued ∨ x ∈ r.em.recycled → 1 ≤ x ∧ x ≤ r.em.currentID
  top : r.em.currentID = 0 ∨ r.em.currentID ∈ r.issued

/-! ## Sample inputs -/

/-- A storage of type `*Storage[game.PositionComponent]`. -/
def samplePositions : StorageRef :=
  { dynType := .ptr (.storage (.base "game.PositionComponent")), addr := 0 }

/-- A second storage of type `*Storage[game.PositionComponent]`. -/
def samplePositionsAgain : StorageRef :=
  { dynType := .ptr (.storage (.base "game.PositionComponent")), addr := 2 }

/-- A storage of type `*Storage[game.SelectableComponent]`. -/
def sampleSelectable : StorageRef :=
  { dynType := .ptr (.storage (.base "game.SelectableComponent")), addr := 4 }

/-- A value of the defined slice type `type Archive []Storage[PositionComponent]`,
which can declare `Has`, `Remove` and `Clear` with value receivers. -/
def sampleArchive : StorageRef :=
  { dynType := .defined "game.Archive" (.slice (.storage (.base "game.PositionComponent"))),
    addr := 5 }

/-- The new registry after `Register(samplePositions)`. -/
def sampleAfterFirst : ComponentRegistry :=
  { nextID := 1
    components := .made (Finmap.singleton (GoType.storage (.base "game.PositionComponent")) 0)
    storages := .made (Finmap.singleton 0 samplePositions) }

/-- The state after registering a second type and a `Clear`, from
`sampleAfterFirst`. -/
def sampleLater : RegRun Unit :=
  Option.get (RegRun.run { reg := sampleAfterFirst, heap := emptyHeap, issued := [0], fresh := 1 }
    [ .register (some { dynType := .ptr (.storage (.base "game.PieceComponent")), addr := 1 }),
      .clear [1, 0] ]) (by decide)

/-- A short history of a registry: two registrations, a `Clear`, a second
storage of the first type, and a third type. -/
def sampleRegOps : List RegOp :=
  [ .register (some { dynType := .ptr (.storage (.base "game.PositionComponent")), addr := 0 }),
    .register (some { dynType := .ptr (.storage (.base "game.PieceComponent")), addr := 1 }),
    .clear [1, 0],
    .register (some { dynType := .ptr (.storage (.base "game.PositionComponent")), addr := 2 }),
    .register (some { dynType := .ptr (.storage (.base "game.MovementComponent")), addr := 3 }) ]

/-- The state after `sampleRegOps` on a new registry. -/
def sampleRegRun : RegRun Unit :=
  Option.get ((RegRun.start emptyHeap).run sampleRegOps) (by decide)

/-- Registers a storage, creates entity 1, gives it a component, and then
calls `CreateEntity` `2^64 - 1` more times. -/
def overflowOps : List (WorldOp String) :=
  [ .registerStorage (some samplePositions), .createEntity, .add 0 1 "e2" ] ++
    List.replicate (entityModulus - 1) .createEntity

/-- A short history of a world: two storages, two entities with components,
one of them destroyed, so that its id is in the pool. -/
def sampleWorldOps : List (WorldOp String) :=
  [ .registerStorage (some samplePositions),
    .registerStorage (some { dynType := .ptr (.storage (.base "game.PieceComponent")), addr := 1 }),
    .createEntity, .add 0 1 "e2", .add 1 1 "white pawn",
    .createEntity, .add 0 2 "d7",
    .destroyEntity [1, 0] 1,
    .remove 1 2 ]

/-- The state after `sampleWorldOps` on a new world. -/
def sampleWorldRun : WorldRun Unit Unit String :=
  Option.get ((WorldRun.start emptyHeap).run sampleWorldOps) (by decide)

/-- The state after the first three calls of `overflowOps`. -/
def beforeOverflow : WorldRun Unit Unit String :=
  Option.get ((WorldRun.start emptyHeap).run
    [ .registerStorage (some samplePositions), .createEntity, .add 0 1 "e2" ]) (by decide)

/-- A system that notes "move" in a list of notes. -/
def sampleMover : System Nat (List String) :=
  { Update := fun _ st => st ++ ["move"] }

/-- A system that notes "render" and how many notes it found. -/
def sampleRenderer : System Nat (List String) :=
  { Update := fun _ st => st ++ ["render after " ++ toString st.length] }

theorem EntityManager.Create_nil (c : Entity) :
    EntityManager.Create { currentID := c, recycled := [] } =
      ((c + 1) % entityModulus, { currentID := (c + 1) % entityModulus, recycled := [] }) := by
  simp [EntityManager.Create]

theorem EntityManager.Create_snoc (c : Entity) (l : List Entity) (x : Entity) :
    EntityManager.Create { currentID := c, recycled := l ++ [x] } =
      (x, { currentID := c, recycled := l }) := by
  simp [EntityManager.Create, List.getElem_append_right]

theorem EntityManager.destroyAll_snoc (em : EntityManager) (ids : List Entity) (x : Entity) :
    em.destroyAll (ids ++ [x]) = (em.destroyAll ids).Destroy x := by
  simp [EntityManager.destroyAll, List.foldl_append]

theorem EntityManager.Create_Destroy (em : EntityManager) (x : Entity) :
    (em.Destroy x).Create = (x, em) := by
  cases em with
  | mk c l => simp [EntityManager.Destroy, EntityManager.Create, List.getElem_append_right]

theorem EntityManager.createMany_destroyAll (ids : List Entity) (em : EntityManager) :
    EntityManager.createMany ids.length (em.destroyAll ids) = (ids.reverse, em) := by
  induction ids using List.reverseRecOn with
  | nil => rfl
  | append_singleton ids x ih =>
    rw [EntityManager.destroyAll_snoc, List.length_append, List.length_singleton,
      EntityManager.createMany, EntityManager.Create_Destroy]
    simp [ih]

theorem EntityManager.destroyAll_currentID (ids : List Entity) (em : EntityManager) :
    (em.destroyAll ids).currentID = em.currentID := by
  induction ids using List.reverseRecOn with
  | nil => rfl
  | append_singleton ids x ih => rw [EntityManager.destroyAll_snoc]; exact ih

theorem EntityManager.destroyAll_recycled (ids : List Entity) (em : EntityManager) :
    (em.destroyAll ids).recycled = em.recycled ++ ids := by
  induction ids using List.reverseRecOn with
  | nil => simp [EntityManager.destroyAll]
  | append_singleton ids x ih =>
    rw [EntityManager.destroyAll_snoc]
    simp [EntityManager.Destroy, ih]

/-! ## Entity manager: the invariant of a disciplined run -/

theorem EMRun.em_inv_start : EMRun.start.Inv := by
  constructor <;> simp [EMRun.start, NewEntityManager]

theorem EMRun.em_fresh_le_step (r : EMRun) (op : EMOp) : r.fresh ≤ (r.step op).fresh := by
  cases op with
  | create => simp only [EMRun.step]; split <;> omega
  | destroy e => simp [EMRun.step]

theorem EMRun.run_cons (r : EMRun) (op : EMOp) (ops : List EMOp) :
    r.run (op :: ops) = (r.step op).run ops := rfl

theorem EMRun.em_run_append (r : EMRun) (ops₁ ops₂ : List EMOp) :
    r.run (ops₁ ++ ops₂) = (r.run ops₁).run ops₂ := by
  simp [EMRun.run, List.foldl_append]

theorem EMRun.em_fresh_le_run (ops : List EMOp) (r : EMRun) : r.fresh ≤ (r.run ops).fresh := by
  induction ops generalizing r with
  | nil => exact le_refl _
  | cons op ops ih => exact le_trans (r.em_fresh_le_step op) (ih (r.step op))

theorem EMRun.disciplined_append (ops₁ ops₂ : List EMOp) (r : EMRun)
    (h : r.disciplined (ops₁ ++ ops₂) = true) :
    r.disciplined ops₁ = true ∧ (r.run ops₁).disciplined ops₂ = true := by
  induction ops₁ generalizing r with
  | nil => exact ⟨rfl, h⟩
  | cons op ops ih =>
    cases op with
    | create => exact ih _ h
    | destroy e =>
      simp only [List.cons_append, EMRun.disciplined, Bool.and_eq_true] at h ⊢
      exact ⟨⟨h.1, (ih _ h.2).1⟩, (ih _ h.2).2⟩

/-- In a state that satisfies the invariant, `Create` returns an id that is not
live, as long as the counter does not wrap. -/
theorem EMRun.Inv.create_not_live {r : EMRun} (hr : r.Inv)
    (hf : (r.step .create).fresh < entityModulus) : r.em.Create.1 ∉ r.live := by
  obtain ⟨em, live, fresh⟩ := r
  obtain ⟨c, pool⟩ := em
  rcases List.eq_nil_or_concat pool with hp | ⟨l, x, hp⟩ <;> try rw [List.concat_eq_append] at hp
  · subst hp
    have hc : (c : ℕ) = fresh := hr.counter
    subst hc
    simp only [EMRun.step, List.length_nil, gt_iff_lt, lt_self_iff_false, if_false] at hf
    rw [EntityManager.Create_nil]
    intro hmem
    have hb : (c + 1) % entityModulus ≤ (c : ℕ) := (hr.bound _ (Or.inl hmem)).2
    rw [Nat.mod_eq_of_lt (by omega)] at hb
    exact absurd hb (Nat.not_succ_le_self c)
  · subst hp
    rw [EntityManager.Create_snoc]
    intro hmem
    exact hr.disjoint x hmem (by simp)

theorem EMRun.Inv.em_step {r : EMRun} (hr : r.Inv) (op : EMOp)
    (hd : ∀ e, op = .destroy e → e ∈ r.live)
    (hf : (r.step op).fresh < entityModulus) : (r.step op).Inv := by
  cases op with
  | create =>
    have hnl := hr.create_not_live hf
    obtain ⟨em, live, fresh⟩ := r
    obtain ⟨c, pool⟩ := em
    rcases List.eq_nil_or_concat pool with hp | ⟨l, x, hp⟩ <;> try rw [List.concat_eq_append] at hp
    · subst hp
      have hc : (c : ℕ) = fresh := hr.counter
      subst hc
      simp only [EMRun.step, List.length_nil, gt_iff_lt, lt_self_iff_false, if_false] at hf
      have hmod : (c + 1) % entityModulus = c + 1 := Nat.mod_eq_of_lt (by omega)
      rw [EntityManager.Create_nil, hmod] at hnl
      simp only [EMRun.step, EntityManager.Create_nil, hmod]
      refine ⟨by simp, List.nodup_cons.mpr ⟨hnl, hr.live_nodup⟩, List.nodup_nil, by simp, ?_⟩
      intro y hy
      simp only [List.mem_cons, List.not_mem_nil, or_false] at hy
      rcases hy with rfl | hy
      · exact ⟨Nat.succ_le_succ (Nat.zero_le c), le_refl _⟩
      · have hb : 1 ≤ (y : ℕ) ∧ (y : ℕ) ≤ c := hr.bound y (Or.inl hy)
        exact ⟨hb.1, Nat.le_succ_of_le hb.2⟩
    · subst hp
      have hpn : (l ++ [x]).Nodup := hr.pool_nodup
      rw [List.nodup_append] at hpn
      rw [EntityManager.Create_snoc] at hnl
      simp only [EMRun.step, EntityManager.Create_snoc]
      refine ⟨?_, List.nodup_cons.mpr ⟨hnl, hr.live_nodup⟩, hpn.1, ?_, ?_⟩
      · have := hr.counter
        simpa using this
      · intro y hy hyl
        simp only [List.mem_cons] at hy
        rcases hy with rfl | hy
        · exact hpn.2.2 hyl (by simp)
        · exact hr.disjoint y hy (by simp [hyl])
      · intro y hy
        apply hr.bound y
        simp only [List.mem_cons] at hy
        rcases hy with (rfl | hy) | hy
        · exact Or.inr (by simp)
        · exact Or.inl hy
        · exact Or.inr (by simp [hy])
  | destroy e =>
    have he := hd e rfl
    refine ⟨hr.counter, hr.live_nodup.erase e, ?_, ?_, ?_⟩
    · simp only [EMRun.step, EntityManager.Destroy]
      rw [List.nodup_append]
      refine ⟨hr.pool_nodup, List.nodup_singleton e, ?_⟩
      intro a ha hae
      simp only [List.mem_singleton] at hae
      subst hae
      exact hr.disjoint a he ha
    · intro y hy
      simp only [EMRun.step, EntityManager.Destroy] at hy ⊢
      rw [hr.live_nodup.mem_erase_iff] at hy
      simp only [List.mem_append, List.mem_singleton, not_or]
      exact ⟨hr.disjoint y hy.2, hy.1⟩
    · intro y hy
      simp only [EMRun.step, EntityManager.Destroy, List.mem_append, List.mem_singleton] at hy ⊢
      rcases hy with hy | hy | rfl
      · exact hr.bound y (Or.inl (List.mem_of_mem_erase hy))
      · exact hr.bound y (Or.inr hy)
      · exact hr.bound y (Or.inl he)

theorem EMRun.Inv.em_run (ops : List EMOp) {r : EMRun} (hr : r.Inv)
    (hd : r.disciplined ops = true) (hf : (r.run ops).fresh < entityModulus) :
    (r.run ops).Inv := by
  induction ops generalizing r with
  | nil => exact hr
  | cons op ops ih =>
    rw [EMRun.run_cons] at hf ⊢
    have hf1 : (r.step op).fresh < entityModulus :=
      lt_of_le_of_lt (EMRun.em_fresh_le_run ops (r.step op)) hf
    cases op with
    | create => exact ih (hr.em_step .create (by simp) hf1) hd hf
    | destroy e =>
      simp only [EMRun.disciplined, Bool.and_eq_true, decide_eq_true_eq] at hd
      refine ih (hr.em_step (.destroy e) ?_ hf1) hd.2 hf
      intro e1 h1
      cases h1
      exact hd.1

theorem EntityManager.createMany_destroyAll_append (em : EntityManager) (pre post : List Entity) :
    EntityManager.createMany post.length (em.destroyAll (pre ++ post)) =
      (post.reverse, em.destroyAll pre) := by
  have h : em.destroyAll (pre ++ post) = (em.destroyAll pre).destroyAll post := by
    simp [EntityManager.destroyAll, List.foldl_append]
  rw [h, EntityManager.createMany_destroyAll]

/-! ## Entity manager: the claims -/

/-- C1 (uniqueness of live entity ids). Take any finite sequence of `Create`
and `Destroy` calls on a manager made by `NewEntityManager`, in which every
`Destroy` is applied to an id that is live at that moment and in which fewer
than `2^64` calls of `Create` find the pool empty. Then at every `Create` of
the sequence the id returned is not among the ids live at the moment of the
call, and after every initial part of the sequence the list of live ids has no
duplicate. -/
theorem live_ids_unique (ops : List EMOp)
    (hd : EMRun.start.disciplined ops = true)
    (hf : (EMRun.start.run ops).fresh < entityModulus) :
    (∀ pre post, ops = pre ++ EMOp.create :: post →
        (EMRun.start.run pre).em.Create.1 ∉ (EMRun.start.run pre).live) ∧
    (∀ pre post, ops = pre ++ post → (EMRun.start.run pre).live.Nodup) := by
  have key : ∀ pre post, ops = pre ++ post →
      (EMRun.start.run pre).Inv ∧ (EMRun.start.run pre).fresh ≤ (EMRun.start.run ops).fresh := by
    intro pre post h
    subst h
    have hle : (EMRun.start.run pre).fresh ≤ (EMRun.start.run (pre ++ post)).fresh := by
      rw [EMRun.em_run_append]
      exact EMRun.em_fresh_le_run post _
    exact ⟨EMRun.em_inv_start.em_run pre (EMRun.disciplined_append pre post _ hd).1
      (lt_of_le_of_lt hle hf), hle⟩
  refine ⟨?_, fun pre post h => (key pre post h).1.live_nodup⟩
  intro pre post h
  have h1 : ops = (pre ++ [EMOp.create]) ++ post := by simp [h]
  have hpre := key pre (EMOp.create :: post) h
  have hnext := key (pre ++ [EMOp.create]) post h1
  apply hpre.1.create_not_live
  have hrun : EMRun.start.run (pre ++ [EMOp.create]) = (EMRun.start.run pre).step .create := by
    rw [EMRun.em_run_append]
    rfl
  rw [← hrun]
  exact lt_of_le_of_lt hnext.2 hf

/-- Witness for C1: the calls `Create`, `Create`, `Destroy(1)`, `Create`,
`Destroy(2)`, `Create`, `Create`. -/
theorem live_ids_unique_witness :
    EMRun.start.disciplined
        [.create, .create, .destroy 1, .create, .destroy 2, .create, .create] = true ∧
      (EMRun.start.run
        [.create, .create, .destroy 1, .create, .destroy 2, .create, .create]).fresh
          < entityModulus ∧
      (∀ pre post,
        [EMOp.create, .create, .destroy 1, .create, .destroy 2, .create, .create]
            = pre ++ EMOp.create :: post →
          (EMRun.start.run pre).em.Create.1 ∉ (EMRun.start.run pre).live) ∧
      (∀ pre post,
        [EMOp.create, .create, .destroy 1, .create, .destroy 2, .create, .create]
            = pre ++ post →
          (EMRun.start.run pre).live.Nodup) :=
  ⟨by decide, by decide,
    live_ids_unique [.create, .create, .destroy 1, .create, .destroy 2, .create, .create]
      (by decide) (by decide)⟩

/-- C6 (recycling is last-in-first-out). For every entity-manager state `em`
and every list of ids `e1..ek`: after `Destroy(e1)`, ..., `Destroy(ek)` the
next `k` calls of `Create` return `ek, ..., e1` in that order and leave the
manager exactly as it was before the destroys, so the counter and the pool are
restored; the counter has its old value after each of these calls as well.
Scenario: `Create` gives 1, `Create` gives 2, `Destroy(1)`, `Create` gives 1. -/
theorem recycling_is_lifo (em : EntityManager) (ids : List Entity) :
    EntityManager.createMany ids.length (em.destroyAll ids) = (ids.reverse, em) ∧
    (∀ pre post, ids = pre ++ post →
      (EntityManager.createMany post.length (em.destroyAll ids)).2.currentID = em.currentID) ∧
    (NewEntityManager.Create.1 = 1 ∧
      NewEntityManager.Create.2.Create.1 = 2 ∧
      (NewEntityManager.Create.2.Create.2.Destroy 1).Create.1 = 1) := by
  refine ⟨EntityManager.createMany_destroyAll ids em, ?_, by decide⟩
  intro pre post h
  subst h
  rw [EntityManager.createMany_destroyAll_append]
  exact EntityManager.destroyAll_currentID pre em

/-! ## Go maps: basic facts -/

theorem lookup_insert_const {α β : Type} [DecidableEq α] (m : Finmap (fun _ : α => β))
    (a a1 : α) (b : β) :
    (m.insert a1 b).lookup a = if a1 = a then some b else m.lookup a := by
  by_cases h : a1 = a
  · subst h
    simp [Finmap.lookup_insert]
  · simp [h, Finmap.lookup_insert_of_ne _ (Ne.symm h)]

theorem GoMap.gm_lookup_isSome {K V : Type} [DecidableEq K] (m : GoMap K V) (k : K) :
    (m.lookup k).isSome = true ↔ k ∈ m :=
  Finmap.lookup_isSome

theorem GoMap.gm_mem_keys {K V : Type} (m : GoMap K V) (k : K) : k ∈ m.keys ↔ k ∈ m :=
  Finmap.mem_keys

theorem GoMap.gm_mem_of_lookup {K V : Type} [DecidableEq K] {m : GoMap K V} {k : K} {v : V}
    (h : m.lookup k = some v) : k ∈ m :=
  Finmap.mem_of_lookup_eq_some h

theorem GoMap.gm_lookup_make {K V : Type} [DecidableEq K] (k : K) :
    (GoMap.make : GoMap K V).lookup k = none :=
  Finmap.lookup_empty k

theorem GoMap.gm_lookup_nil {K V : Type} [DecidableEq K] (k : K) :
    (GoMap.nil : GoMap K V).lookup k = none :=
  Finmap.lookup_empty k

theorem GoMap.gm_not_mem_make {K V : Type} (k : K) : k ∉ (GoMap.make : GoMap K V) :=
  Finmap.not_mem_empty

theorem GoMap.gm_lookup_put {K V : Type} [DecidableEq K] (m : GoMap K V) (k k1 : K) (v : V) :
    (m.put k1 v).lookup k = if k1 = k then some v else m.lookup k :=
  lookup_insert_const m.entries k k1 v

theorem GoMap.gm_mem_put {K V : Type} [DecidableEq K] (m : GoMap K V) (k k1 : K) (v : V) :
    k ∈ m.put k1 v ↔ k = k1 ∨ k ∈ m :=
  Finmap.mem_insert

theorem GoMap.gm_keys_put {K V : Type} [DecidableEq K] (m : GoMap K V) (k : K) (v : V) :
    (m.put k v).keys = Insert.insert k m.keys := by
  ext x
  rw [GoMap.gm_mem_keys, GoMap.gm_mem_put, Finset.mem_insert, GoMap.gm_mem_keys]

theorem GoMap.gm_isNil_put {K V : Type} [DecidableEq K] (m : GoMap K V) (k : K) (v : V) :
    (m.put k v).isNil = false :=
  rfl

theorem GoMap.gm_insert_made {K V : Type} [DecidableEq K] (m : GoMap K V) (k : K) (v : V)
    (h : m.isNil = false) : m.insert k v = some (m.put k v) := by
  cases m with
  | nil => simp [GoMap.isNil] at h
  | made es => rfl

theorem GoMap.gm_insert_nil {K V : Type} [DecidableEq K] (m : GoMap K V) (k : K) (v : V)
    (h : m.isNil = true) : m.insert k v = none := by
  cases m with
  | nil => rfl
  | made es => simp [GoMap.isNil] at h

theorem GoMap.gm_insert_some {K V : Type} [DecidableEq K] {m m1 : GoMap K V} {k : K} {v : V}
    (h : m.insert k v = some m1) : m.isNil = false ∧ m1 = m.put k v := by
  cases m with
  | nil => simp [GoMap.insert] at h
  | made es =>
    simp only [GoMap.insert, Option.some.injEq] at h
    exact ⟨rfl, h.symm⟩

theorem GoMap.gm_lookup_erase {K V : Type} [DecidableEq K] (m : GoMap K V) (k k1 : K) :
    (m.erase k1).lookup k = if k1 = k then none else m.lookup k := by
  cases m with
  | nil =>
    show (GoMap.nil : GoMap K V).lookup k = _
    rw [GoMap.gm_lookup_nil]
    split <;> rfl
  | made es =>
    show (es.erase k1).lookup k = if k1 = k then none else es.lookup k
    by_cases h : k1 = k
    · subst h
      simp [Finmap.lookup_erase]
    · simp [h, Finmap.lookup_erase_ne (Ne.symm h)]

theorem GoMap.gm_isNil_erase {K V : Type} [DecidableEq K] (m : GoMap K V) (k : K) :
    (m.erase k).isNil = m.isNil := by
  cases m <;> rfl

/-- Two maps are equal when both are nil or both are made and they answer every
read alike. -/
theorem GoMap.gm_ext {K V : Type} [DecidableEq K] {m m1 : GoMap K V}
    (hnil : m.isNil = m1.isNil) (h : ∀ k, m.lookup k = m1.lookup k) : m = m1 := by
  cases m with
  | nil =>
    cases m1 with
    | nil => rfl
    | made es => simp [GoMap.isNil] at hnil
  | made es =>
    cases m1 with
    | nil => simp [GoMap.isNil] at hnil
    | made es1 =>
      have : es = es1 := Finmap.ext_lookup h
      rw [this]

/-! ## Storage -/

theorem Storage.Has_eq_true_iff {T : Type} (s : Storage T) (e : Entity) :
    s.Has e = true ↔ e ∈ s.components :=
  GoMap.gm_lookup_isSome _ _

theorem Storage.Has_eq_false_iff {T : Type} (s : Storage T) (e : Entity) :
    s.Has e = false ↔ s.components.lookup e = none := by
  simp [Storage.Has]

theorem Storage.Add_of_made {T : Type} (s : Storage T) (e : Entity) (v : T)
    (h : s.components.isNil = false) :
    s.Add e v = some { components := s.components.put e v } := by
  simp [Storage.Add, GoMap.gm_insert_made _ e v h]

theorem Storage.Add_of_nil {T : Type} (s : Storage T) (e : Entity) (v : T)
    (h : s.components.isNil = true) : s.Add e v = none := by
  simp [Storage.Add, GoMap.gm_insert_nil _ e v h]

theorem Storage.Add_some {T : Type} {s s1 : Storage T} {e : Entity} {v : T}
    (h : s.Add e v = some s1) :
    s.components.isNil = false ∧ s1 = { components := s.components.put e v } := by
  rcases hn : s.components.isNil with _ | _
  · rw [Storage.Add_of_made s e v hn] at h
    simp only [Option.some.injEq] at h
    exact ⟨rfl, h.symm⟩
  · rw [Storage.Add_of_nil s e v hn] at h
    exact absurd h (by simp)

theorem Storage.isNil_Add {T : Type} {s s1 : Storage T} {e : Entity} {v : T}
    (h : s.Add e v = some s1) : s1.components.isNil = false := by
  rw [(Storage.Add_some h).2]
  rfl

theorem Storage.lookup_Add {T : Type} {s s1 : Storage T} {e1 : Entity} {v : T}
    (h : s.Add e1 v = some s1) (e : Entity) :
    s1.components.lookup e = if e1 = e then some v else s.components.lookup e := by
  rw [(Storage.Add_some h).2]
  exact GoMap.gm_lookup_put _ _ _ _

theorem Storage.lookup_Remove {T : Type} (s : Storage T) (e e1 : Entity) :
    (s.Remove e1).components.lookup e = if e1 = e then none else s.components.lookup e :=
  GoMap.gm_lookup_erase _ _ _

theorem Storage.isNil_Remove {T : Type} (s : Storage T) (e : Entity) :
    (s.Remove e).components.isNil = s.components.isNil :=
  GoMap.gm_isNil_erase _ _

theorem Storage.lookup_Clear {T : Type} (s : Storage T) (e : Entity) :
    s.Clear.components.lookup e = none :=
  GoMap.gm_lookup_make e

theorem Storage.ext_lookup {T : Type} {s t : Storage T}
    (hnil : s.components.isNil = t.components.isNil)
    (h : ∀ e, s.components.lookup e = t.components.lookup e) : s = t := by
  cases s
  cases t
  simp only [Storage.mk.injEq]
  exact GoMap.gm_ext hnil h

theorem Storage.Remove_of_not_Has {T : Type} (s : Storage T) (e : Entity)
    (h : s.Has e = false) : s.Remove e = s := by
  apply Storage.ext_lookup (s.isNil_Remove e)
  intro x
  rw [Storage.lookup_Remove]
  split
  · next hx => subst hx; exact ((s.Has_eq_false_iff e).mp h).symm
  · rfl

theorem Storage.applyAll_append {T : Type} (ops₁ ops₂ : List (StorageOp T)) (s : Storage T) :
    s.applyAll (ops₁ ++ ops₂) = (s.applyAll ops₁).bind (fun s1 => s1.applyAll ops₂) := by
  induction ops₁ generalizing s with
  | nil => rfl
  | cons op ops ih =>
    simp only [List.cons_append, Storage.applyAll]
    rcases s.apply op with _ | s1
    · rfl
    · exact ih s1

theorem Storage.lookup_apply {T : Type} {s s1 : Storage T} {op : StorageOp T}
    (h : s.apply op = some s1) (e : Entity) :
    s1.components.lookup e = mostRecentlyAdded (s.components.lookup e) e [op] := by
  cases op with
  | add e1 v =>
    simp only [Storage.apply] at h
    simp only [Storage.lookup_Add h, mostRecentlyAdded]
  | remove e1 =>
    simp only [Storage.apply, Option.some.injEq] at h
    subst h
    simp only [Storage.lookup_Remove, mostRecentlyAdded]
  | clear =>
    simp only [Storage.apply, Option.some.injEq] at h
    subst h
    simp only [Storage.lookup_Clear, mostRecentlyAdded]

theorem mostRecentlyAdded_append {T : Type} (init : Option T) (e : Entity)
    (recent older : List (StorageOp T)) :
    mostRecentlyAdded init e (recent ++ older) =
      mostRecentlyAdded (mostRecentlyAdded init e older) e recent := by
  induction recent with
  | nil => rfl
  | cons op rest ih =>
    cases op with
    | add e1 v =>
      rw [List.cons_append]
      simp only [mostRecentlyAdded, ih]
    | remove e1 =>
      rw [List.cons_append]
      simp only [mostRecentlyAdded, ih]
    | clear =>
      rw [List.cons_append]
      simp only [mostRecentlyAdded]

/-- The entry of `e` after a history of writing calls is the value most
recently added for `e`, in the sense of `mostRecentlyAdded`. -/
theorem Storage.lookup_applyAll {T : Type} (ops : List (StorageOp T)) {s s1 : Storage T}
    (h : s.applyAll ops = some s1) (e : Entity) :
    s1.components.lookup e = mostRecentlyAdded (s.components.lookup e) e ops.reverse := by
  induction ops generalizing s with
  | nil =>
    simp only [Storage.applyAll, Option.some.injEq] at h
    subst h
    rfl
  | cons op ops ih =>
    simp only [Storage.applyAll] at h
    rcases hop : s.apply op with _ | s2
    · simp [hop] at h
    · simp only [hop] at h
      rw [ih h, Storage.lookup_apply hop, List.reverse_cons, mostRecentlyAdded_append]

/-- A history of writing calls on a storage whose map is made does not panic
and leaves the map made. -/
theorem Storage.applyAll_of_made {T : Type} (ops : List (StorageOp T)) (s : Storage T)
    (h : s.components.isNil = false) :
    ∃ s1, s.applyAll ops = some s1 ∧ s1.components.isNil = false := by
  induction ops generalizing s with
  | nil => exact ⟨s, rfl, h⟩
  | cons op ops ih =>
    cases op with
    | add e v =>
      obtain ⟨s1, h1, h2⟩ := ih { components := s.components.put e v } rfl
      exact ⟨s1, by simp only [Storage.applyAll, Storage.apply, Storage.Add_of_made s e v h, h1], h2⟩
    | remove e =>
      obtain ⟨s1, h1, h2⟩ := ih (s.Remove e) ((s.isNil_Remove e).trans h)
      exact ⟨s1, by simp only [Storage.applyAll, Storage.apply, h1], h2⟩
    | clear =>
      obtain ⟨s1, h1, h2⟩ := ih s.Clear rfl
      exact ⟨s1, by simp only [Storage.applyAll, Storage.apply, h1], h2⟩

/-- Counterexample to C4 as stated. The zero value of `Storage[T]` is a state
of a storage: `Has` and `Get` work on it as on an empty storage, and
`Add(1, 5)` panics on its nil map, so there is no state after the call. -/
theorem add_panics_on_zero_storage :
    (Storage.zero : Storage Nat).Add 1 5 = none ∧
    (Storage.zero : Storage Nat).Has 1 = false ∧
    ((Storage.zero : Storage Nat).Get 1).1 = (0, some { entity := 1 }) :=
  ⟨rfl, rfl, rfl⟩

/-- C4, amended (storage round trip). For every state of a `Storage[T]` whose
map is not nil, every entity `e` and every value `v`: `Add(e, v)` returns, and
after it the call `Get(e)` returns exactly `v` with a nil error and `Has(e)`
is true. On the zero value of the struct, whose map is nil, `Add` panics.
Every state that `NewStorage` and any calls of `Add`, `Remove` and `Clear`
lead to has a map that is not nil, and none of these calls panics. -/
theorem storage_round_trip {T : Type} [Inhabited T] (s : Storage T) (e : Entity) (v : T) :
    (s.components.isNil = false →
      ∃ s1, s.Add e v = some s1 ∧ (s1.Get e).1 = (v, none) ∧ s1.Has e = true) ∧
    (s.components.isNil = true → s.Add e v = none) ∧
    (∀ ops : List (StorageOp T),
      ∃ s1, (NewStorage : Storage T).applyAll ops = some s1 ∧ s1.components.isNil = false) := by
  refine ⟨?_, Storage.Add_of_nil s e v, fun ops => Storage.applyAll_of_made ops NewStorage rfl⟩
  intro hmade
  have hadd := Storage.Add_of_made s e v hmade
  refine ⟨_, hadd, ?_, ?_⟩
  · simp [Storage.Get, Storage.lookup_Add hadd]
  · simp [Storage.Has, Storage.lookup_Add hadd]

/-- C5 (Get fails exactly when the component is absent). For every state `s`
of a `Storage[T]` and every entity `e`: `Get(e)` returns a non-nil error if and
only if `Has(e)` is false, and the error then carries `e`; when `Has(e)` is
true, `Get(e)` returns the stored value and a nil error, and that value is the
one most recently added for `e`: whatever state `s0` and writing calls led to
`s`, it is the value of the last `Add(e, _)` not followed by `Remove(e)` or
`Clear` (or the entry of `s0` when no call concerned `e`). `Get` returns the
storage as it was. -/
theorem get_fails_iff_absent {T : Type} [Inhabited T] (s : Storage T) (e : Entity) :
    (((s.Get e).1.2 ≠ none) ↔ s.Has e = false) ∧
    (s.Has e = false → (s.Get e).1.2 = some { entity := e }) ∧
    (s.Has e = true → ∃ v, s.components.lookup e = some v ∧ (s.Get e).1 = (v, none)) ∧
    (∀ (s0 : Storage T) (ops : List (StorageOp T)), s0.applyAll ops = some s → s.Has e = true →
      ∃ v, mostRecentlyAdded (s0.components.lookup e) e ops.reverse = some v ∧
        (s.Get e).1 = (v, none)) ∧
    (s.Get e).2 = s := by
  have hpresent : s.Has e = true → ∃ v, s.components.lookup e = some v ∧ (s.Get e).1 = (v, none) := by
    intro h
    rcases hl : s.components.lookup e with _ | v
    · simp [Storage.Has, hl] at h
    · exact ⟨v, rfl, by simp [Storage.Get, hl]⟩
  refine ⟨?_, ?_, hpresent, ?_, ?_⟩
  · rcases hl : s.components.lookup e with _ | v <;> simp [Storage.Get, Storage.Has, hl]
  · intro h
    rw [Storage.Has_eq_false_iff] at h
    simp [Storage.Get, h]
  · intro s0 ops hs h
    obtain ⟨v, hv, hg⟩ := hpresent h
    refine ⟨v, ?_, hg⟩
    rw [← Storage.lookup_applyAll ops hs, hv]
  · rcases hl : s.components.lookup e with _ | v <;> simp [Storage.Get, hl]

/-! ## Registry: basic facts -/

theorem componentIDModulus_eq : componentIDModulus = 4294967296 := by
  norm_num [componentIDModulus]

/-- What `Register` does on a storage whose type key is already filed. -/
theorem ComponentRegistry.Register_known (r : ComponentRegistry) (ref : StorageRef)
    (k : GoType) (id : ComponentID) (hk : ref.dynType.Elem = some k)
    (hl : r.components.lookup k = some id) :
    r.Register (some ref) = some (id, r) := by
  simp [ComponentRegistry.Register, hk, hl]

/-- What `Register` does on a storage whose type key is new. -/
theorem ComponentRegistry.Register_new (r : ComponentRegistry) (ref : StorageRef)
    (k : GoType) (hk : ref.dynType.Elem = some k)
    (hl : r.components.lookup k = none)
    (hmade : r.components.isNil = false ∧ r.storages.isNil = false) :
    r.Register (some ref) = some (r.nextID,
      { nextID := (r.nextID + 1) % componentIDModulus
        components := r.components.put k r.nextID
        storages := r.storages.put r.nextID ref }) := by
  simp [ComponentRegistry.Register, hk, hl, GoMap.gm_insert_made _ _ _ hmade.1,
    GoMap.gm_insert_made _ _ _ hmade.2]

/-- On a new type key `Register` panics when one of the two maps is nil. -/
theorem ComponentRegistry.Register_nil (r : ComponentRegistry) (ref : StorageRef)
    (k : GoType) (hk : ref.dynType.Elem = some k)
    (hl : r.components.lookup k = none)
    (hnil : ¬ (r.components.isNil = false ∧ r.storages.isNil = false)) :
    r.Register (some ref) = none := by
  rcases hc : r.components.isNil with _ | _
  · rcases hs : r.storages.isNil with _ | _
    · exact absurd ⟨hc, hs⟩ hnil
    · simp [ComponentRegistry.Register, hk, hl, GoMap.gm_insert_made _ _ _ hc,
        GoMap.gm_insert_nil _ _ _ hs]
  · simp [ComponentRegistry.Register, hk, hl, GoMap.gm_insert_nil _ _ _ hc]

/-- The two ways in which a call of `Register` returns. -/
theorem ComponentRegistry.Register_cases {r r1 : ComponentRegistry} {storage : ComponentStorage}
    {id : ComponentID} (h : r.Register storage = some (id, r1)) :
    ∃ ref k, storage = some ref ∧ ref.dynType.Elem = some k ∧
      ((r.components.lookup k = some id ∧ r1 = r) ∨
       (r.components.lookup k = none ∧ id = r.nextID ∧
        (r.components.isNil = false ∧ r.storages.isNil = false) ∧
        r1 = { nextID := (r.nextID + 1) % componentIDModulus
               components := r.components.put k r.nextID
               storages := r.storages.put r.nextID ref })) := by
  rcases storage with _ | ref
  · simp [ComponentRegistry.Register] at h
  · rcases hk : ref.dynType.Elem with _ | k
    · simp [ComponentRegistry.Register, hk] at h
    · refine ⟨ref, k, rfl, hk, ?_⟩
      rcases hl : r.components.lookup k with _ | id1
      · by_cases hmade : r.components.isNil = false ∧ r.storages.isNil = false
        · rw [ComponentRegistry.Register_new r ref k hk hl hmade] at h
          simp only [Option.some.injEq, Prod.mk.injEq] at h
          exact Or.inr ⟨rfl, h.1.symm, hmade, h.2.symm⟩
        · rw [ComponentRegistry.Register_nil r ref k hk hl hmade] at h
          exact absurd h (by simp)
      · rw [ComponentRegistry.Register_known r ref k id1 hk hl] at h
        simp only [Option.some.injEq, Prod.mk.injEq] at h
        exact Or.inl ⟨by rw [h.1], h.2.symm⟩

theorem RegRun.reg_run_append {V : Type} (ops₁ ops₂ : List RegOp) (s : RegRun V) :
    s.run (ops₁ ++ ops₂) = (s.run ops₁).bind (fun s1 => s1.run ops₂) := by
  induction ops₁ generalizing s with
  | nil => rfl
  | cons op ops ih =>
    simp only [List.cons_append, RegRun.run]
    rcases s.step op with _ | s1
    · rfl
    · exact ih s1

/-- The shape of a step: a `Register` that finds its key, a `Register` that
allocates, or a `Clear`. -/
theorem RegRun.step_cases {V : Type} {s s1 : RegRun V} {op : RegOp} (h : s.step op = some s1) :
    (∃ ref k id, op = .register (some ref) ∧ ref.dynType.Elem = some k ∧
        s.reg.components.lookup k = some id ∧
        s1 = { reg := s.reg, heap := s.heap, issued := id :: s.issued, fresh := s.fresh }) ∨
    (∃ ref k, op = .register (some ref) ∧ ref.dynType.Elem = some k ∧
        s.reg.components.lookup k = none ∧
        (s.reg.components.isNil = false ∧ s.reg.storages.isNil = false) ∧
        s1 = { reg := { nextID := (s.reg.nextID + 1) % componentIDModulus
                        components := s.reg.components.put k s.reg.nextID
                        storages := s.reg.storages.put s.reg.nextID ref }
               heap := s.heap, issued := s.reg.nextID :: s.issued, fresh := s.fresh + 1 }) ∨
    (s1.reg = s.reg ∧ s1.issued = s.issued ∧ s1.fresh = s.fresh ∧ ∃ order, op = .clear order) := by
  cases op with
  | clear order =>
    simp only [RegRun.step, Option.some.injEq] at h
    subst h
    exact Or.inr (Or.inr ⟨rfl, rfl, rfl, order, rfl⟩)
  | register storage =>
    simp only [RegRun.step] at h
    rcases hr : s.reg.Register storage with _ | ⟨id, r⟩
    · simp [hr] at h
    · simp only [hr, Option.some.injEq] at h
      obtain ⟨ref, k, hs, hk, hcase⟩ := ComponentRegistry.Register_cases hr
      subst hs
      have htk : typeKey (some ref) = some k := by simp [typeKey, reflectTypeOf, hk]
      rcases hcase with ⟨hl, hrr⟩ | ⟨hl, hid, hmade, hrr⟩
      · left
        refine ⟨ref, k, id, rfl, hk, hl, ?_⟩
        subst hrr
        rw [← h]
        simp [htk, hl]
      · right; left
        refine ⟨ref, k, rfl, hk, hl, hmade, ?_⟩
        subst hrr hid
        rw [← h]
        simp [htk, hl]

/-! ## Registry: the consistency invariant -/

theorem RegRun.reg_inv_start {V : Type} (heap : Heap V) : (RegRun.start heap).Inv := by
  constructor <;>
    first
    | exact ⟨rfl, rfl⟩
    | simp [RegRun.start, NewComponentRegistry, GoMap.gm_lookup_make, GoMap.gm_not_mem_make]

theorem RegRun.reg_fresh_le_step {V : Type} {s s1 : RegRun V} {op : RegOp}
    (h : s.step op = some s1) : s.fresh ≤ s1.fresh := by
  rcases RegRun.step_cases h with ⟨_, _, _, _, _, _, rfl⟩ | ⟨_, _, _, _, _, _, rfl⟩ | ⟨_, _, hf, _⟩
  · exact le_refl _
  · exact Nat.le_succ _
  · exact le_of_eq hf.symm

theorem RegRun.reg_fresh_le_run {V : Type} (ops : List RegOp) {s s1 : RegRun V}
    (h : s.run ops = some s1) : s.fresh ≤ s1.fresh := by
  induction ops generalizing s with
  | nil =>
    simp only [RegRun.run, Option.some.injEq] at h
    subst h
    exact le_refl _
  | cons op ops ih =>
    simp only [RegRun.run] at h
    rcases hs : s.step op with _ | s2
    · simp [hs] at h
    · simp only [hs] at h
      exact le_trans (RegRun.reg_fresh_le_step hs) (ih h)

theorem RegRun.Inv.reg_step {V : Type} {s s1 : RegRun V} {op : RegOp} (hs : s.Inv)
    (h : s.step op = some s1) (hf : s1.fresh < componentIDModulus) : s1.Inv := by
  rcases RegRun.step_cases h with ⟨ref, k, id, _, hk, hl, rfl⟩ | ⟨ref, k, _, hk, hl, _, rfl⟩ |
    ⟨hr, hi, hfr, _⟩
  · refine ⟨hs.counter, hs.inj, hs.image, hs.keys, ?_, hs.made⟩
    intro id1
    simp only [List.mem_cons]
    constructor
    · rintro (rfl | h1)
      · exact (hs.image id1).mp ⟨k, hl⟩
      · exact (hs.issued id1).mp h1
    · intro h1
      exact Or.inr ((hs.issued id1).mpr h1)
  · have hc : s.reg.nextID = s.fresh := hs.counter
    have hmod : (s.reg.nextID + 1) % componentIDModulus = s.reg.nextID + 1 := by
      apply Nat.mod_eq_of_lt
      rw [hc]
      exact hf
    refine ⟨?_, ?_, ?_, ?_, ?_, ⟨rfl, rfl⟩⟩
    · show (s.reg.nextID + 1) % componentIDModulus = s.fresh + 1
      rw [hmod, hc]
    · intro t1 t2 id h1 h2
      simp only [GoMap.gm_lookup_put] at h1 h2
      split at h1 <;> split at h2
      · next a b => exact a.symm.trans b
      · next a b =>
        simp only [Option.some.injEq] at h1
        subst h1
        exact absurd ((hs.image _).mp ⟨t2, h2⟩) (lt_irrefl _)
      · next a b =>
        simp only [Option.some.injEq] at h2
        subst h2
        exact absurd ((hs.image _).mp ⟨t1, h1⟩) (lt_irrefl _)
      · exact hs.inj t1 t2 id h1 h2
    · intro id
      show (∃ t, (s.reg.components.put k s.reg.nextID).lookup t = some id) ↔
        id < (s.reg.nextID + 1) % componentIDModulus
      rw [hmod, Nat.lt_succ_iff_lt_or_eq]
      constructor
      · rintro ⟨t, ht⟩
        rw [GoMap.gm_lookup_put] at ht
        split at ht
        · simp only [Option.some.injEq] at ht
          exact Or.inr ht.symm
        · exact Or.inl ((hs.image id).mp ⟨t, ht⟩)
      · rintro (h1 | h1)
        · obtain ⟨t, ht⟩ := (hs.image id).mpr h1
          refine ⟨t, ?_⟩
          rw [GoMap.gm_lookup_put]
          split
          · next a =>
            subst a
            rw [hl] at ht
            exact absurd ht (by simp)
          · exact ht
        · exact ⟨k, by rw [GoMap.gm_lookup_put, h1]; simp⟩
    · intro id
      show id ∈ s.reg.storages.put s.reg.nextID ref ↔
        id < (s.reg.nextID + 1) % componentIDModulus
      rw [hmod, Nat.lt_succ_iff_lt_or_eq, GoMap.gm_mem_put, hs.keys id]
      exact or_comm
    · intro id
      show id ∈ s.reg.nextID :: s.issued ↔ id < (s.reg.nextID + 1) % componentIDModulus
      rw [hmod, Nat.lt_succ_iff_lt_or_eq, List.mem_cons, hs.issued id]
      exact or_comm
  · refine ⟨?_, ?_, ?_, ?_, ?_, ?_⟩
    · rw [hr, hfr]; exact hs.counter
    · rw [hr]; exact hs.inj
    · rw [hr]; exact hs.image
    · rw [hr]; exact hs.keys
    · rw [hr, hi]; exact hs.issued
    · rw [hr]; exact hs.made

theorem RegRun.Inv.reg_run {V : Type} (ops : List RegOp) {s s1 : RegRun V} (hs : s.Inv)
    (h : s.run ops = some s1) (hf : s1.fresh < componentIDModulus) : s1.Inv := by
  induction ops generalizing s with
  | nil =>
    simp only [RegRun.run, Option.some.injEq] at h
    subst h
    exact hs
  | cons op ops ih =>
    simp only [RegRun.run] at h
    rcases hst : s.step op with _ | s2
    · simp [hst] at h
    · simp only [hst] at h
      exact ih (hs.reg_step hst (lt_of_le_of_lt (RegRun.reg_fresh_le_run ops h) hf)) h

theorem RegRun.step_register_new {V : Type} (s : RegRun V) (ref : StorageRef) (k : GoType)
    (hk : ref.dynType.Elem = some k) (hl : s.reg.components.lookup k = none)
    (hmade : s.reg.components.isNil = false ∧ s.reg.storages.isNil = false) :
    s.step (.register (some ref)) =
      some { reg := { nextID := (s.reg.nextID + 1) % componentIDModulus
                      components := s.reg.components.put k s.reg.nextID
                      storages := s.reg.storages.put s.reg.nextID ref }
             heap := s.heap, issued := s.reg.nextID :: s.issued, fresh := s.fresh + 1 } := by
  have htk : typeKey (some ref) = some k := by simp [typeKey, reflectTypeOf, hk]
  simp [RegRun.step, ComponentRegistry.Register_new s.reg ref k hk hl hmade, htk, hl]

/-- The two maps of a registry made by `NewComponentRegistry` stay made. -/
theorem RegRun.made_step {V : Type} {s s1 : RegRun V} {op : RegOp}
    (h : s.step op = some s1)
    (hm : s.reg.components.isNil = false ∧ s.reg.storages.isNil = false) :
    s1.reg.components.isNil = false ∧ s1.reg.storages.isNil = false := by
  rcases RegRun.step_cases h with ⟨_, _, _, _, _, _, rfl⟩ | ⟨_, _, _, _, _, _, rfl⟩ | ⟨hr, _⟩
  · exact hm
  · exact ⟨rfl, rfl⟩
  · rw [hr]; exact hm

theorem RegRun.made_run {V : Type} (ops : List RegOp) {s s1 : RegRun V}
    (h : s.run ops = some s1)
    (hm : s.reg.components.isNil = false ∧ s.reg.storages.isNil = false) :
    s1.reg.components.isNil = false ∧ s1.reg.storages.isNil = false := by
  induction ops generalizing s with
  | nil =>
    simp only [RegRun.run, Option.some.injEq] at h
    subst h
    exact hm
  | cons op ops ih =>
    simp only [RegRun.run] at h
    rcases hs : s.step op with _ | s2
    · simp [hs] at h
    · simp only [hs] at h
      exact ih h (RegRun.made_step hs hm)

theorem registerNumbered_succ (n : Nat) :
    registerNumbered (n + 1) = registerNumbered n ++
      [RegOp.register (some { dynType := GoType.numbered n, addr := n })] := by
  simp [registerNumbered, List.range_succ]

/-- Registering `n` storages of pairwise different types from a new registry,
for `n` up to `2^32`: the counter is `n` modulo `2^32`, the filed keys are the
`n` element types, and the first storage holds id 0. -/
theorem registerNumbered_run {V : Type} (heap : Heap V) (n : Nat)
    (hn : n ≤ componentIDModulus) :
    ∃ s : RegRun V, (RegRun.start heap).run (registerNumbered n) = some s ∧
      s.reg.nextID = n % componentIDModulus ∧ s.fresh = n ∧
      (∀ t, s.reg.components.lookup t ≠ none →
        ∃ i, i < n ∧ t = .storage (.array i (.base "game.Unit"))) ∧
      (0 < n → s.reg.components.lookup (.storage (.array 0 (.base "game.Unit"))) = some 0 ∧
        s.reg.storages.lookup 0 = some { dynType := GoType.numbered 0, addr := 0 }) := by
  induction n with
  | zero =>
    refine ⟨RegRun.start heap, rfl, rfl, rfl, ?_, ?_⟩
    · intro t ht
      simp [RegRun.start, NewComponentRegistry, GoMap.gm_lookup_make] at ht
    · intro h
      exact absurd h (lt_irrefl 0)
  | succ n ih =>
    obtain ⟨s, hrun, hnext, hfresh, hkeys, hzero⟩ := ih (Nat.le_of_succ_le hn)
    have hlt : n < componentIDModulus := hn
    have hmod : n % componentIDModulus = n := Nat.mod_eq_of_lt hlt
    have hk : (GoType.numbered n).Elem = some (.storage (.array n (.base "game.Unit"))) := rfl
    have hl : s.reg.components.lookup (.storage (.array n (.base "game.Unit"))) = none := by
      by_contra hne
      obtain ⟨i, hi, heq⟩ := hkeys _ hne
      simp only [GoType.storage.injEq, GoType.array.injEq, and_true] at heq
      omega
    have hmade := RegRun.made_run _ hrun ⟨rfl, rfl⟩
    have hstep := RegRun.step_register_new s { dynType := GoType.numbered n, addr := n } _ hk hl
      hmade
    refine ⟨{ reg := { nextID := (s.reg.nextID + 1) % componentIDModulus
                       components := s.reg.components.put
                         (.storage (.array n (.base "game.Unit"))) s.reg.nextID
                       storages := s.reg.storages.put s.reg.nextID
                         { dynType := GoType.numbered n, addr := n } }
              heap := s.heap, issued := s.reg.nextID :: s.issued, fresh := s.fresh + 1 },
      ?_, ?_, ?_, ?_, ?_⟩
    · rw [registerNumbered_succ, RegRun.reg_run_append, hrun]
      simp only [Option.some_bind, RegRun.run, hstep]
    · show (s.reg.nextID + 1) % componentIDModulus = (n + 1) % componentIDModulus
      rw [hnext, hmod]
    · show s.fresh + 1 = n + 1
      rw [hfresh]
    · intro t ht
      simp only [GoMap.gm_lookup_put] at ht
      by_cases h : GoType.storage (.array n (.base "game.Unit")) = t
      · exact ⟨n, Nat.lt_succ_self n, h.symm⟩
      · simp only [h, if_false] at ht
        obtain ⟨i, hi, heq⟩ := hkeys t ht
        exact ⟨i, Nat.lt_succ_of_lt hi, heq⟩
    · intro _
      show (s.reg.components.put _ s.reg.nextID).lookup _ = some 0 ∧
        (s.reg.storages.put s.reg.nextID _).lookup 0 = some _
      rw [GoMap.gm_lookup_put, GoMap.gm_lookup_put, hnext, hmod]
      rcases Nat.eq_zero_or_pos n with h0 | hpos
      · subst h0
        simp
      · have hne : n ≠ 0 := Nat.pos_iff_ne_zero.mp hpos
        have hne2 : GoType.storage (.array n (.base "game.Unit")) ≠
            GoType.storage (.array 0 (.base "game.Unit")) := by
          simp only [ne_eq, GoType.storage.injEq, GoType.array.injEq, and_true]
          exact hne
        simp only [hne, hne2, if_false]
        exact hzero hpos

/-! ## Registry: the claims -/

/-- Counterexample to C8 as stated. From `NewComponentRegistry`, register one
storage of type `*Storage[[i]Unit]` for each `i < 2^32`. Every call returns,
the `uint32` counter `nextID` has wrapped to 0, and the ID-to-handle map still
has the key 0: its key set is not `{0, ..., nextID-1}`. -/
theorem registry_inconsistent_after_wrap :
    ∃ s : RegRun Unit,
      (RegRun.start emptyHeap).run (registerNumbered componentIDModulus) = some s ∧
      s.reg.nextID = 0 ∧ (s.reg.GetStorage 0).isSome = true ∧
      ¬ (∀ id : ℕ, id ∈ s.reg.storages ↔ id < s.reg.nextID) := by
  obtain ⟨s, hrun, hnext, _, _, hzero⟩ :=
    registerNumbered_run (emptyHeap : Heap Unit) componentIDModulus (le_refl _)
  have hpos : 0 < componentIDModulus := by rw [componentIDModulus_eq]; norm_num
  have h0 := (hzero hpos).2
  have hn0 : s.reg.nextID = 0 := by rw [hnext, Nat.mod_self]
  refine ⟨s, hrun, hn0, by simp [ComponentRegistry.GetStorage, h0], ?_⟩
  intro hall
  have hmem : (0 : ℕ) ∈ s.reg.storages := GoMap.gm_mem_of_lookup h0
  have := (hall 0).mp hmem
  rw [hn0] at this
  exact absurd this (lt_irrefl 0)

/-- C8, amended (registry consistency invariant). In every registry state
reached from `NewComponentRegistry` by calls of `Register` and `Clear` of which
fewer than `2^32` allocated a new id: the type-to-ID map is injective; the set
of ids in its image equals the key set of the ID-to-handle map, which equals
`{0, ..., nextID-1}`; and `GetStorage(id)` returns a handle if and only if `id`
was returned by an earlier `Register` on this registry. -/
theorem registry_consistent {V : Type} (heap : Heap V) (ops : List RegOp) (s : RegRun V)
    (hrun : (RegRun.start heap).run ops = some s)
    (hfresh : s.fresh < componentIDModulus) :
    (∀ (t1 t2 : GoType) (id : ℕ), s.reg.components.lookup t1 = some id →
      s.reg.components.lookup t2 = some id → t1 = t2) ∧
    (∀ id : ℕ, (∃ t, s.reg.components.lookup t = some id) ↔ id ∈ s.reg.storages) ∧
    (∀ id : ℕ, id ∈ s.reg.storages ↔ id < s.reg.nextID) ∧
    (∀ id : ℕ, (s.reg.GetStorage id).isSome = true ↔ id ∈ s.issued) := by
  have hinv := (RegRun.reg_inv_start heap).reg_run ops hrun hfresh
  refine ⟨hinv.inj, ?_, hinv.keys, ?_⟩
  · intro id
    rw [hinv.image id, hinv.keys id]
  · intro id
    rw [ComponentRegistry.GetStorage, GoMap.gm_lookup_isSome, hinv.keys id, hinv.issued id]

/-- Witness for C8 (amended): the history `sampleRegOps`, with three
allocations. -/
theorem registry_consistent_witness :
    (RegRun.start emptyHeap).run sampleRegOps = some sampleRegRun ∧
    sampleRegRun.fresh < componentIDModulus ∧
    (∀ id : ℕ, id ∈ sampleRegRun.reg.storages ↔ id < sampleRegRun.reg.nextID) ∧
    (∀ id : ℕ, (sampleRegRun.reg.GetStorage id).isSome = true ↔ id ∈ sampleRegRun.issued) :=
  ⟨(Option.some_get _).symm, by decide,
    (registry_consistent emptyHeap sampleRegOps sampleRegRun
      (Option.some_get _).symm (by decide)).2.2.1,
    (registry_consistent emptyHeap sampleRegOps sampleRegRun
      (Option.some_get _).symm (by decide)).2.2.2⟩

theorem RegRun.lookup_preserved_step {V : Type} {s s1 : RegRun V} {op : RegOp}
    (h : s.step op = some s1) {k : GoType} {id : ComponentID}
    (hl : s.reg.components.lookup k = some id) : s1.reg.components.lookup k = some id := by
  rcases RegRun.step_cases h with ⟨_, _, _, _, _, _, rfl⟩ | ⟨_, k1, _, _, hl1, _, rfl⟩ | ⟨hr, _⟩
  · exact hl
  · show (s.reg.components.put k1 s.reg.nextID).lookup k = some id
    rw [GoMap.gm_lookup_put]
    split
    · next a =>
      subst a
      rw [hl] at hl1
      exact absurd hl1 (by simp)
    · exact hl
  · rw [hr]; exact hl

theorem RegRun.lookup_preserved_run {V : Type} (ops : List RegOp) {s s1 : RegRun V}
    (h : s.run ops = some s1) {k : GoType} {id : ComponentID}
    (hl : s.reg.components.lookup k = some id) : s1.reg.components.lookup k = some id := by
  induction ops generalizing s with
  | nil =>
    simp only [RegRun.run, Option.some.injEq] at h
    subst h
    exact hl
  | cons op ops ih =>
    simp only [RegRun.run] at h
    rcases hst : s.step op with _ | s2
    · simp [hst] at h
    · simp only [hst] at h
      exact ih h (RegRun.lookup_preserved_step hst hl)

/-- A handle filed under `id` stays there as long as fewer than `2^32` further
allocations happen: the counter, which is `j` allocations past `id + 1`, does
not come back to `id`. -/
theorem RegRun.storage_preserved_run {V : Type} (ops : List RegOp) {s s1 : RegRun V}
    (h : s.run ops = some s1) {id : ℕ} {ref : StorageRef} (j : ℕ)
    (hid : id < componentIDModulus)
    (hnext : s.reg.nextID = (id + 1 + j) % componentIDModulus)
    (hl : s.reg.storages.lookup id = some ref)
    (hj : j + (s1.fresh - s.fresh) < componentIDModulus) :
    s1.reg.storages.lookup id = some ref := by
  induction ops generalizing s j with
  | nil =>
    simp only [RegRun.run, Option.some.injEq] at h
    subst h
    exact hl
  | cons op ops ih =>
    simp only [RegRun.run] at h
    rcases hst : s.step op with _ | s2
    · simp [hst] at h
    · simp only [hst] at h
      have hle := RegRun.reg_fresh_le_run ops h
      rcases RegRun.step_cases hst with ⟨_, _, _, _, _, _, rfl⟩ | ⟨ref1, k1, _, _, hl1, _, rfl⟩ |
        ⟨hr, _, hf, _⟩
      · exact ih h j hnext hl hj
      · have hle1 : s.fresh + 1 ≤ s1.fresh := hle
        rw [componentIDModulus_eq] at hid hnext hj
        have key : ∀ a b : ℕ, a < 4294967296 → b + 1 < 4294967296 →
            (a + 1 + b) % 4294967296 ≠ a := by
          intro a b ha hb
          omega
        have hj1 : j + 1 < 4294967296 := by omega
        have hne : s.reg.nextID ≠ id := by
          rw [hnext]
          exact key id j hid hj1
        refine ih h (j + 1) ?_ ?_ ?_
        · show (s.reg.nextID + 1) % componentIDModulus = (id + 1 + (j + 1)) % componentIDModulus
          rw [hnext, componentIDModulus_eq]
          exact Nat.mod_add_mod (id + 1 + j) 4294967296 1
        · show (s.reg.storages.put s.reg.nextID ref1).lookup id = some ref
          rw [GoMap.gm_lookup_put, if_neg hne]
          exact hl
        · show j + 1 + (s1.fresh - (s.fresh + 1)) < componentIDModulus
          rw [componentIDModulus_eq]
          omega
      · refine ih h j ?_ ?_ ?_
        · rw [hr]; exact hnext
        · rw [hr]; exact hl
        · rw [hf]; exact hj

theorem registerNumbered_head (n : Nat) :
    registerNumbered (n + 1) =
      RegOp.register (some { dynType := GoType.numbered 0, addr := 0 }) ::
        ((List.range n).map Nat.succ).map
          (fun i => RegOp.register (some { dynType := GoType.numbered i, addr := i })) := by
  simp [registerNumbered, List.range_succ_eq_map]

/-- Counterexample to C3 as stated: a later `Register(s2)` returns the id of
`s1`, and `GetStorage(id)` does not yield `s1`. (1) On a registry that holds
`samplePositions` under id 0, `Register` of a second storage of that type,
`samplePositionsAgain`, returns 0, and so does the later `Register` of a third
one; `GetStorage(0)` is `samplePositions`, the first storage of the type, not
`samplePositionsAgain`. (2) From a new registry, `Register` of the storage of
type `*Storage[[0]Unit]` returns 0; it is the first of `2^32` registrations of
different types, after which the counter has wrapped, so that the
registration of a `*Storage[int]` is filed under id 0 as well. A later
`Register` of another `*Storage[[0]Unit]` returns 0, and `GetStorage(0)` is the
`*Storage[int]`. -/
theorem later_register_finds_other_handle :
    (samplePositionsAgain.dynType = samplePositions.dynType ∧
      sampleAfterFirst.Register (some samplePositionsAgain) = some (0, sampleAfterFirst) ∧
      sampleAfterFirst.Register (some { dynType := samplePositions.dynType, addr := 7 })
        = some (0, sampleAfterFirst) ∧
      sampleAfterFirst.GetStorage 0 = some samplePositions ∧
      samplePositions ≠ samplePositionsAgain) ∧
    (∃ (rest : List RegOp) (s : RegRun Unit),
      registerNumbered componentIDModulus =
        RegOp.register (some { dynType := GoType.numbered 0, addr := 0 }) :: rest ∧
      (∃ r1, NewComponentRegistry.Register (some { dynType := GoType.numbered 0, addr := 0 })
        = some (0, r1)) ∧
      (RegRun.start emptyHeap).run (registerNumbered componentIDModulus ++
        [.register (some { dynType := .ptr (.storage (.base "int")), addr := 9 })]) = some s ∧
      s.reg.Register (some { dynType := GoType.numbered 0, addr := 7 }) = some (0, s.reg) ∧
      s.reg.GetStorage 0 = some { dynType := .ptr (.storage (.base "int")), addr := 9 } ∧
      ({ dynType := .ptr (.storage (.base "int")), addr := 9 } : StorageRef)
        ≠ { dynType := GoType.numbered 0, addr := 0 }) := by
  refine ⟨⟨by decide, by decide, by decide, by decide, by decide⟩, ?_⟩
  obtain ⟨s0, hrun, hnext, _, hkeys, hzero⟩ :=
    registerNumbered_run (emptyHeap : Heap Unit) componentIDModulus (le_refl _)
  have hpos : 0 < componentIDModulus := by rw [componentIDModulus_eq]; norm_num
  have hn0 : s0.reg.nextID = 0 := by rw [hnext, Nat.mod_self]
  have hnew : s0.reg.components.lookup (.storage (.base "int")) = none := by
    by_contra hne
    obtain ⟨i, _, heq⟩ := hkeys _ hne
    simp at heq
  have hstep := RegRun.step_register_new s0
    { dynType := .ptr (.storage (.base "int")), addr := 9 } (.storage (.base "int")) rfl hnew
    (RegRun.made_run _ hrun ⟨rfl, rfl⟩)
  have hhead : ∃ rest, registerNumbered componentIDModulus =
      RegOp.register (some { dynType := GoType.numbered 0, addr := 0 }) :: rest := by
    rw [componentIDModulus_eq]
    exact ⟨_, registerNumbered_head 4294967295⟩
  obtain ⟨rest, hrest⟩ := hhead
  have hrun2 : (RegRun.start emptyHeap).run (registerNumbered componentIDModulus ++
      [.register (some { dynType := .ptr (.storage (.base "int")), addr := 9 })]) =
      s0.step (.register (some { dynType := .ptr (.storage (.base "int")), addr := 9 })) := by
    rw [RegRun.reg_run_append, hrun]
    simp only [Option.some_bind, RegRun.run]
    cases s0.step (.register (some { dynType := .ptr (.storage (.base "int")), addr := 9 })) <;>
      rfl
  rw [hstep] at hrun2
  refine ⟨rest, _, hrest, ⟨_, ComponentRegistry.Register_new NewComponentRegistry
      { dynType := GoType.numbered 0, addr := 0 } _ rfl (GoMap.gm_lookup_make _) ⟨rfl, rfl⟩⟩,
    hrun2, ?_, ?_, by decide⟩
  · refine ComponentRegistry.Register_known _ _ (.storage (.array 0 (.base "game.Unit"))) 0 rfl ?_
    show (s0.reg.components.put _ s0.reg.nextID).lookup _ = some 0
    rw [GoMap.gm_lookup_put, if_neg (by simp)]
    exact (hzero hpos).1
  · show (s0.reg.storages.put s0.reg.nextID _).lookup 0 = some _
    rw [GoMap.gm_lookup_put, if_pos hn0]

/-- C3, amended (registration is idempotent and ids are stable). Let
`Register(s1)` return `id` on any registry `r`, let any number of calls of
`Register` and `Clear` follow (none of which panics), and let `s2` have the
same concrete type as `s1`. Then `Register(s2)` returns the same `id` and
leaves the registry as it is: `nextID`, the type-to-ID map and the
ID-to-handle map are as before, so `GetStorage` yields what it yielded before
the call and `s2` is not stored. When `s1` was the first storage of its type
(its `Register` allocated `id`) and fewer than `2^32` of the calls in between
allocated, so that `id` was not handed out again, `GetStorage(id)` yields `s1`
after the later call. -/
theorem register_idempotent {V : Type} (r r1 : ComponentRegistry) (heap : Heap V)
    (issued : List ComponentID) (f : ℕ) (s1 s2 : StorageRef) (id : ComponentID)
    (ops : List RegOp) (sB : RegRun V)
    (hsame : s1.dynType = s2.dynType)
    (h1 : r.Register (some s1) = some (id, r1))
    (hops : RegRun.run { reg := r1, heap := heap, issued := issued, fresh := f } ops = some sB) :
    sB.reg.Register (some s2) = some (id, sB.reg) ∧
    (∀ id2 r2, sB.reg.Register (some s2) = some (id2, r2) →
      id2 = id ∧ r2.nextID = sB.reg.nextID ∧ r2.components = sB.reg.components ∧
      r2.storages = sB.reg.storages ∧ ∀ i, r2.GetStorage i = sB.reg.GetStorage i) ∧
    (r1 ≠ r → r.nextID < componentIDModulus → sB.fresh < f + componentIDModulus →
      ∀ id2 r2, sB.reg.Register (some s2) = some (id2, r2) → r2.GetStorage id = some s1) := by
  obtain ⟨ref, k, hs, hk, hcase⟩ := ComponentRegistry.Register_cases h1
  simp only [Option.some.injEq] at hs
  subst hs
  have hl1 : r1.components.lookup k = some id := by
    rcases hcase with ⟨hl, hrr⟩ | ⟨_, hid, _, hrr⟩
    · rw [hrr]; exact hl
    · rw [hrr, hid]
      show (r.components.put k r.nextID).lookup k = some r.nextID
      rw [GoMap.gm_lookup_put, if_pos rfl]
  have hlB : sB.reg.components.lookup k = some id :=
    RegRun.lookup_preserved_run ops hops hl1
  have hreg : sB.reg.Register (some s2) = some (id, sB.reg) :=
    ComponentRegistry.Register_known sB.reg s2 k id (hsame ▸ hk) hlB
  refine ⟨hreg, ?_, ?_⟩
  · intro id2 r2 h2
    rw [hreg] at h2
    simp only [Option.some.injEq, Prod.mk.injEq] at h2
    rw [← h2.1, ← h2.2]
    exact ⟨rfl, rfl, rfl, rfl, fun _ => rfl⟩
  intro hne hlt hfr id2 r2 h2
  rw [hreg] at h2
  simp only [Option.some.injEq, Prod.mk.injEq] at h2
  rw [← h2.2]
  rcases hcase with ⟨_, hrr⟩ | ⟨_, hid, _, hrr⟩
  · exact absurd hrr hne
  · subst hid
    refine RegRun.storage_preserved_run ops hops 0 hlt ?_ ?_ ?_
    · rw [hrr]
    · rw [hrr]
      show (r.storages.put r.nextID s1).lookup r.nextID = some s1
      rw [GoMap.gm_lookup_put, if_pos rfl]
    · show 0 + (sB.fresh - f) < componentIDModulus
      rw [componentIDModulus_eq] at hfr ⊢
      omega

/-- Witness for C3 (amended): `Register(samplePositions)` on a new registry, then a
second type and a `Clear`, then `Register(samplePositionsAgain)`. -/
theorem register_idempotent_witness :
    samplePositions.dynType = samplePositionsAgain.dynType ∧
    NewComponentRegistry.Register (some samplePositions) = some (0, sampleAfterFirst) ∧
    sampleLater.reg.Register (some samplePositionsAgain) = some (0, sampleLater.reg) ∧
    sampleLater.reg.GetStorage 0 = some samplePositions :=
  ⟨by decide, by decide,
    (register_idempotent NewComponentRegistry sampleAfterFirst emptyHeap [0] 1
      samplePositions samplePositionsAgain 0 _ sampleLater (by decide) (by decide)
      (Option.some_get _).symm).1,
    (register_idempotent NewComponentRegistry sampleAfterFirst emptyHeap [0] 1
      samplePositions samplePositionsAgain 0 _ sampleLater (by decide) (by decide)
      (Option.some_get _).symm).2.2 (by decide) (by decide) (by decide) 0 sampleLater.reg
      (by decide)⟩

/-- Counterexample to C10 as stated. (1) `*Storage[PositionComponent]` and the
defined slice type `Archive`, whose elements are `Storage[PositionComponent]`,
are different concrete types that can implement `ComponentStorage`; both have
the element type `Storage[PositionComponent]`, and on a new registry
`Register` returns 0 for both. (2) After `2^32` registrations of different
types the counter has wrapped: `Register` returns 0 for the first of those
storages and 0 again for a storage of a type never seen, `*Storage[int]`. -/
theorem distinct_types_same_id :
    (samplePositions.dynType.canImplement = true ∧
      sampleArchive.dynType.canImplement = true ∧
      samplePositions.dynType ≠ sampleArchive.dynType ∧
      ∃ r1 r2, NewComponentRegistry.Register (some samplePositions) = some (0, r1) ∧
        r1.Register (some sampleArchive) = some (0, r2)) ∧
    (∃ s : RegRun Unit,
      (RegRun.start emptyHeap).run (registerNumbered componentIDModulus) = some s ∧
      GoType.numbered 0 ≠ GoType.ptr (.storage (.base "int")) ∧
      ∃ r1 r2, s.reg.Register (some { dynType := GoType.numbered 0, addr := 0 }) = some (0, r1) ∧
        r1.Register (some { dynType := .ptr (.storage (.base "int")), addr := 9 })
          = some (0, r2)) := by
  refine ⟨⟨by decide, by decide, by decide, sampleAfterFirst, sampleAfterFirst,
    by decide, by decide⟩, ?_⟩
  obtain ⟨s, hrun, hnext, _, hkeys, hzero⟩ :=
    registerNumbered_run (emptyHeap : Heap Unit) componentIDModulus (le_refl _)
  have hpos : 0 < componentIDModulus := by rw [componentIDModulus_eq]; norm_num
  have hn0 : s.reg.nextID = 0 := by rw [hnext, Nat.mod_self]
  have hnew : s.reg.components.lookup (.storage (.base "int")) = none := by
    by_contra hne
    obtain ⟨i, _, heq⟩ := hkeys _ hne
    simp at heq
  have h1 := ComponentRegistry.Register_known s.reg
    { dynType := GoType.numbered 0, addr := 0 } _ 0 rfl (hzero hpos).1
  have h2 := ComponentRegistry.Register_new s.reg
    { dynType := .ptr (.storage (.base "int")), addr := 9 } (.storage (.base "int")) rfl hnew
    (RegRun.made_run _ hrun ⟨rfl, rfl⟩)
  rw [hn0] at h2
  exact ⟨s, hrun, by decide, s.reg, _, h1, h2⟩

/-- C10, amended (distinct element types get distinct ids). In every registry
state reached from `NewComponentRegistry` by calls of `Register` and `Clear` of
which fewer than `2^32` allocated a new id, and for every two storages whose
dynamic types have element types and these differ (as for two pointer types
`*A` and `*B` with `A` different from `B`, in particular `*Storage[A]` and
`*Storage[B]`): `Register(s1)` and then `Register(s2)` both return, and they
return different ids. -/
theorem distinct_keys_distinct_ids {V : Type} (heap : Heap V) (ops : List RegOp) (s : RegRun V)
    (s1 s2 : StorageRef) (k1 k2 : GoType)
    (hrun : (RegRun.start heap).run ops = some s)
    (hfresh : s.fresh < componentIDModulus)
    (hk1 : s1.dynType.Elem = some k1) (hk2 : s2.dynType.Elem = some k2) (hne : k1 ≠ k2) :
    ∃ id1 r1 id2 r2, s.reg.Register (some s1) = some (id1, r1) ∧
      r1.Register (some s2) = some (id2, r2) ∧ id1 ≠ id2 := by
  have hinv := (RegRun.reg_inv_start heap).reg_run ops hrun hfresh
  have hc : s.reg.nextID = s.fresh := hinv.counter
  have key : ∀ a : ℕ, a < 4294967296 → (a + 1) % 4294967296 ≠ a := by
    intro a ha
    omega
  rcases hl1 : s.reg.components.lookup k1 with _ | id1
  · have hr1 := ComponentRegistry.Register_new s.reg s1 k1 hk1 hl1 hinv.made
    have hl2 : (s.reg.components.put k1 s.reg.nextID).lookup k2 = s.reg.components.lookup k2 := by
      rw [GoMap.gm_lookup_put, if_neg hne]
    rcases hl2s : s.reg.components.lookup k2 with _ | id2
    · refine ⟨_, _, _, _, hr1,
        ComponentRegistry.Register_new _ s2 k2 hk2 (hl2.trans hl2s) ⟨rfl, rfl⟩, ?_⟩
      show s.reg.nextID ≠ (s.reg.nextID + 1) % componentIDModulus
      rw [componentIDModulus_eq]
      refine Ne.symm (key _ ?_)
      rw [hc, ← componentIDModulus_eq]
      exact hfresh
    · refine ⟨_, _, _, _, hr1,
        ComponentRegistry.Register_known _ s2 k2 id2 hk2 (hl2.trans hl2s), ?_⟩
      exact Nat.ne_of_gt ((hinv.image id2).mp ⟨k2, hl2s⟩)
  · have hr1 := ComponentRegistry.Register_known s.reg s1 k1 id1 hk1 hl1
    rcases hl2s : s.reg.components.lookup k2 with _ | id2
    · refine ⟨_, _, _, _, hr1, ComponentRegistry.Register_new _ s2 k2 hk2 hl2s hinv.made, ?_⟩
      exact Nat.ne_of_lt ((hinv.image id1).mp ⟨k1, hl1⟩)
    · refine ⟨_, _, _, _, hr1, ComponentRegistry.Register_known _ s2 k2 id2 hk2 hl2s, ?_⟩
      intro h
      subst h
      exact hne (hinv.inj k1 k2 id1 hl1 hl2s)

/-- Witness for C10 (amended): after `sampleRegOps`, a storage of the
registered type `*Storage[PositionComponent]` and one of the new type
`*Storage[SelectableComponent]`. -/
theorem distinct_keys_distinct_ids_witness :
    (RegRun.start emptyHeap).run sampleRegOps = some sampleRegRun ∧
    sampleRegRun.fresh < componentIDModulus ∧
    samplePositions.dynType.Elem = some (.storage (.base "game.PositionComponent")) ∧
    sampleSelectable.dynType.Elem = some (.storage (.base "game.SelectableComponent")) ∧
    GoType.storage (.base "game.PositionComponent")
      ≠ GoType.storage (.base "game.SelectableComponent") ∧
    ∃ id1 r1 id2 r2, sampleRegRun.reg.Register (some samplePositions) = some (id1, r1) ∧
      r1.Register (some sampleSelectable) = some (id2, r2) ∧ id1 ≠ id2 :=
  ⟨(Option.some_get _).symm, by decide, by decide, by decide, by decide,
    distinct_keys_distinct_ids emptyHeap sampleRegOps sampleRegRun samplePositions
      sampleSelectable (.storage (.base "game.PositionComponent"))
      (.storage (.base "game.SelectableComponent")) (Option.some_get _).symm (by decide)
      (by decide) (by decide) (by decide)⟩

/-! ## World: destroying an entity -/

theorem Storage.Has_Remove_self {T : Type} (s : Storage T) (e : Entity) :
    (s.Remove e).Has e = false := by
  rw [Storage.Has_eq_false_iff, Storage.lookup_Remove, if_pos rfl]

theorem Storage.Remove_Remove {T : Type} (s : Storage T) (e : Entity) :
    (s.Remove e).Remove e = s.Remove e :=
  Storage.Remove_of_not_Has _ e (s.Has_Remove_self e)

theorem visits_cons (m : GoMap ComponentID StorageRef) (id : ComponentID)
    (order : List ComponentID) (a : Nat) :
    visits m (id :: order) a ↔ (∃ ref, m.lookup id = some ref ∧ ref.addr = a) ∨ visits m order a := by
  constructor
  · rintro ⟨id1, ref, hmem, hl, ha⟩
    rcases List.mem_cons.mp hmem with rfl | hmem
    · exact Or.inl ⟨ref, hl, ha⟩
    · exact Or.inr ⟨id1, ref, hmem, hl, ha⟩
  · rintro (⟨ref, hl, ha⟩ | ⟨id1, ref, hmem, hl, ha⟩)
    · exact ⟨id, ref, List.mem_cons_self _ _, hl, ha⟩
    · exact ⟨id1, ref, List.mem_cons_of_mem _ hmem, hl, ha⟩

theorem not_visits_nil (m : GoMap ComponentID StorageRef) (a : Nat) :
    ¬ visits m [] a := by
  rintro ⟨_, _, hmem, _⟩
  exact absurd hmem (List.not_mem_nil _)

/-- The loop of `DestroyEntity`: the object at an address that the loop visits
ends as it was with the entry of the entity erased; every other object is
untouched. -/
theorem destroy_loop {V : Type} (m : GoMap ComponentID StorageRef)
    (entity : Entity) (order : List ComponentID) (heap : Heap V) (a : Nat) :
    (visits m order a →
      order.foldl (fun h id =>
        match m.lookup id with
        | none => h
        | some ref =>
          if (h ref.addr).Has entity then
            Function.update h ref.addr ((h ref.addr).Remove entity)
          else h) heap a = (heap a).Remove entity) ∧
    (¬ visits m order a →
      order.foldl (fun h id =>
        match m.lookup id with
        | none => h
        | some ref =>
          if (h ref.addr).Has entity then
            Function.update h ref.addr ((h ref.addr).Remove entity)
          else h) heap a = heap a) := by
  induction order generalizing heap with
  | nil => exact ⟨fun h => absurd h (not_visits_nil m a), fun _ => rfl⟩
  | cons id order ih =>
    simp only [List.foldl_cons]
    rcases hl : m.lookup id with _ | ref
    · have hv : visits m (id :: order) a ↔ visits m order a := by
        rw [visits_cons, hl]
        simp
      simp only [hv]
      exact ih heap
    · by_cases hhas : (heap ref.addr).Has entity = true
      · simp only [hhas, if_true]
        by_cases ha : ref.addr = a
        · subst ha
          have hnow : Function.update heap ref.addr ((heap ref.addr).Remove entity) ref.addr
              = (heap ref.addr).Remove entity := Function.update_same _ _ _
          have hv : visits m (id :: order) ref.addr := (visits_cons m id order _).mpr
            (Or.inl ⟨ref, hl, rfl⟩)
          refine ⟨fun _ => ?_, fun hn => absurd hv hn⟩
          by_cases hrest : visits m order ref.addr
          · rw [(ih _).1 hrest, hnow, Storage.Remove_Remove]
          · rw [(ih _).2 hrest, hnow]
        · have hnow : Function.update heap ref.addr ((heap ref.addr).Remove entity) a = heap a :=
            Function.update_noteq (Ne.symm ha) _ _
          have hv : visits m (id :: order) a ↔ visits m order a := by
            rw [visits_cons, hl]
            simp [ha]
          simp only [hv]
          rw [← hnow]
          exact ih _
      · simp only [hhas]
        by_cases ha : ref.addr = a
        · subst ha
          have hv : visits m (id :: order) ref.addr := (visits_cons m id order _).mpr
            (Or.inl ⟨ref, hl, rfl⟩)
          have hsame : (heap ref.addr).Remove entity = heap ref.addr :=
            Storage.Remove_of_not_Has _ _ (by simpa using hhas)
          refine ⟨fun _ => ?_, fun hn => absurd hv hn⟩
          by_cases hrest : visits m order ref.addr
          · exact (ih heap).1 hrest
          · rw [if_neg (by simp), (ih heap).2 hrest, hsame]
        · have hv : visits m (id :: order) a ↔ visits m order a := by
            rw [visits_cons, hl]
            simp [ha]
          simp only [hv]
          exact ih heap

theorem rangeOrder_mem {r : ComponentRegistry} {order : List ComponentID}
    (h : r.rangeOrder order) {id : ComponentID} {ref : StorageRef}
    (hl : r.storages.lookup id = some ref) : id ∈ order := by
  have hk : id ∈ r.storages.keys := (GoMap.gm_mem_keys _ _).mpr (GoMap.gm_mem_of_lookup hl)
  rw [← h.2] at hk
  exact List.mem_toFinset.mp hk

/-- After the loop of `DestroyEntity`, a registered storage is what it was with
the entry of the entity erased. -/
theorem World.DestroyEntity_registered {D σ V : Type} (w : World D σ) (order : List ComponentID)
    (heap : Heap V) (e : Entity) (horder : w.components.rangeOrder order)
    {id : ComponentID} {ref : StorageRef} (hl : w.components.storages.lookup id = some ref) :
    (w.DestroyEntity order heap e).2 ref.addr = (heap ref.addr).Remove e :=
  (destroy_loop w.components.storages e order heap ref.addr).1
    ⟨id, ref, rangeOrder_mem horder hl, hl, rfl⟩

theorem World.addSystems_systems {D σ : Type} (systems : List (System D σ)) (w : World D σ) :
    (w.addSystems systems).systems = w.systems ++ systems := by
  induction systems generalizing w with
  | nil => simp [World.addSystems]
  | cons system rest ih =>
    have h : w.addSystems (system :: rest) = (w.AddSystem system).addSystems rest := rfl
    rw [h, ih]
    simp [World.AddSystem]

theorem World.addSystems_entities {D σ : Type} (systems : List (System D σ)) (w : World D σ) :
    (w.addSystems systems).entities = w.entities ∧
    (w.addSystems systems).components = w.components := by
  induction systems generalizing w with
  | nil => exact ⟨rfl, rfl⟩
  | cons system rest ih =>
    have h : w.addSystems (system :: rest) = (w.AddSystem system).addSystems rest := rfl
    rw [h]
    exact ih (w.AddSystem system)

theorem World.runSystems_eq_foldl {D σ : Type} (dt : D) (systems : List (System D σ)) (st : σ) :
    World.runSystems dt systems st = systems.foldl (fun acc system => system.Update dt acc) st := by
  induction systems generalizing st with
  | nil => rfl
  | cons system rest ih => exact ih _

/-- The log that instrumented systems leave: the indices in increasing order,
each once, each with the `dt` of the tick. -/
theorem World.runSystems_loggedFrom {D σ : Type} (dt : D) (systems : List (System D σ))
    (i : Nat) (st : σ) (log : List (Nat × D)) :
    World.runSystems dt (loggedFrom i systems) (st, log) =
      (World.runSystems dt systems st,
        log ++ (List.range' i systems.length).map (fun j => (j, dt))) := by
  induction systems generalizing i st log with
  | nil => simp [loggedFrom, World.runSystems]
  | cons system rest ih =>
    simp only [loggedFrom, World.runSystems, System.logged, List.length_cons]
    rw [ih]
    simp [List.range'_succ]

/-- C7 (tick ordering). Let the system list of a world be built by
`AddSystem(S1)`, ..., `AddSystem(Sn)` in that order on a world with no systems
(as `NewWorld` gives and as `Clear` leaves). Then the list is `S1, ..., Sn`,
and one call of `Update(dt)` takes the state through `S1.Update(dt)`, ...,
`Sn.Update(dt)` in that order, each system working on the state its
predecessor left; `Update` returns the world, and with it the system list, as
it was. With every system instrumented to log its index and the `dt` it gets,
the log of one `Update(dt)` is `(0, dt), (1, dt), ..., (n-1, dt)`: every system
exactly once, in registration order, with the same `dt`. -/
theorem tick_ordering {D σ : Type} (w0 : World D σ) (w1 : World D (σ × List (Nat × D)))
    (systems : List (System D σ)) (dt : D) (st : σ)
    (hw0 : w0.systems = []) (hw1 : w1.systems = []) :
    (w0.addSystems systems).systems = systems ∧
    ((w0.addSystems systems).Update dt st).2 =
      systems.foldl (fun acc system => system.Update dt acc) st ∧
    ((w0.addSystems systems).Update dt st).1 = w0.addSystems systems ∧
    ((w1.addSystems (loggedFrom 0 systems)).Update dt (st, [])).2 =
      (systems.foldl (fun acc system => system.Update dt acc) st,
        (List.range systems.length).map (fun i => (i, dt))) := by
  have h0 : (w0.addSystems systems).systems = systems := by
    rw [World.addSystems_systems, hw0, List.nil_append]
  have h1 : (w1.addSystems (loggedFrom 0 systems)).systems = loggedFrom 0 systems := by
    rw [World.addSystems_systems, hw1, List.nil_append]
  refine ⟨h0, ?_, rfl, ?_⟩
  · show World.runSystems dt (w0.addSystems systems).systems st = _
    rw [h0, World.runSystems_eq_foldl]
  · show World.runSystems dt (w1.addSystems (loggedFrom 0 systems)).systems (st, []) = _
    rw [h1, World.runSystems_loggedFrom, World.runSystems_eq_foldl, List.nil_append,
      List.range_eq_range']

/-- Witness for C7: two systems added to a new world and, instrumented, to a
world that was cleared; one tick with `dt = 16`. -/
theorem tick_ordering_witness :
    (NewWorld : World Nat (List String)).systems = [] ∧
    (((NewWorld : World Nat (List String × List (Nat × Nat))).AddSystem
        (sampleMover.logged 7)).Clear [] (emptyHeap : Heap Unit)).1.systems = [] ∧
    (((NewWorld : World Nat (List String)).addSystems [sampleMover, sampleRenderer]).Update
        16 []).2 = ["move", "render after 1"] ∧
    ((((((NewWorld : World Nat (List String × List (Nat × Nat))).AddSystem
        (sampleMover.logged 7)).Clear [] (emptyHeap : Heap Unit)).1.addSystems
          (loggedFrom 0 [sampleMover, sampleRenderer])).Update 16 ([], [])).2).2
      = [(0, 16), (1, 16)] :=
  ⟨rfl, rfl,
    (tick_ordering NewWorld
      (((NewWorld : World Nat (List String × List (Nat × Nat))).AddSystem
        (sampleMover.logged 7)).Clear [] (emptyHeap : Heap Unit)).1
      [sampleMover, sampleRenderer] 16 [] rfl rfl).2.1.trans (by decide),
    (congrArg Prod.snd (tick_ordering NewWorld
      (((NewWorld : World Nat (List String × List (Nat × Nat))).AddSystem
        (sampleMover.logged 7)).Clear [] (emptyHeap : Heap Unit)).1
      [sampleMover, sampleRenderer] 16 [] rfl rfl).2.2.2).trans (by decide)⟩

/-! ## World: no dangling components -/

/-- The loop of `ComponentRegistry.Clear`: the object at an address that the
loop visits ends empty; every other object is untouched. -/
theorem clear_loop {V : Type} (m : GoMap ComponentID StorageRef)
    (order : List ComponentID) (heap : Heap V) (a : Nat) :
    (visits m order a →
      order.foldl (fun h id =>
        match m.lookup id with
        | none => h
        | some ref => Function.update h ref.addr (h ref.addr).Clear) heap a = NewStorage) ∧
    (¬ visits m order a →
      order.foldl (fun h id =>
        match m.lookup id with
        | none => h
        | some ref => Function.update h ref.addr (h ref.addr).Clear) heap a = heap a) := by
  induction order generalizing heap with
  | nil => exact ⟨fun h => absurd h (not_visits_nil m a), fun _ => rfl⟩
  | cons id order ih =>
    simp only [List.foldl_cons]
    rcases hl : m.lookup id with _ | ref
    · have hv : visits m (id :: order) a ↔ visits m order a := by
        rw [visits_cons, hl]
        simp
      simp only [hv]
      exact ih heap
    · dsimp only
      by_cases ha : ref.addr = a
      · subst ha
        have hnow : Function.update heap ref.addr (heap ref.addr).Clear ref.addr = NewStorage :=
          Function.update_same _ _ _
        have hv : visits m (id :: order) ref.addr := (visits_cons m id order _).mpr
          (Or.inl ⟨ref, hl, rfl⟩)
        refine ⟨fun _ => ?_, fun hn => absurd hv hn⟩
        by_cases hrest : visits m order ref.addr
        · exact (ih _).1 hrest
        · rw [(ih _).2 hrest, hnow]
      · have hnow : Function.update heap ref.addr (heap ref.addr).Clear a = heap a :=
          Function.update_noteq (Ne.symm ha) _ _
        have hv : visits m (id :: order) a ↔ visits m order a := by
          rw [visits_cons, hl]
          simp [ha]
        simp only [hv]
        rw [← hnow]
        exact ih _

theorem Storage.Has_NewStorage {T : Type} (e : Entity) : (NewStorage : Storage T).Has e = false := by
  simp [Storage.Has, NewStorage, GoMap.gm_lookup_make]

theorem Storage.Has_Add {T : Type} {s s1 : Storage T} {e : Entity} {v : T}
    (h : s.Add e v = some s1) (e1 : Entity) :
    s1.Has e1 = true ↔ e = e1 ∨ s.Has e1 = true := by
  simp only [Storage.Has, Storage.lookup_Add h]
  split <;> simp_all

theorem Storage.Has_Remove {T : Type} (s : Storage T) (e e1 : Entity) :
    (s.Remove e).Has e1 = true ↔ e ≠ e1 ∧ s.Has e1 = true := by
  simp only [Storage.Has, Storage.lookup_Remove]
  split <;> simp_all

/-- A step that meets the provisos keeps the registered storages clean. -/
theorem WorldRun.Clean.clean_step {D σ V : Type} {s s1 : WorldRun D σ V} {op : WorldOp V}
    (hs : s.Clean) (hadm : s.admits op = true) (h : s.step op = some s1) : s1.Clean := by
  cases op with
  | registerStorage storage =>
    simp only [WorldRun.step, World.RegisterStorage] at h
    rcases hr : s.world.components.Register storage with _ | ⟨id, r⟩
    · simp [hr] at h
    · simp only [hr, Option.some.injEq] at h
      subst h
      obtain ⟨ref, k, hst, _, hcase⟩ := ComponentRegistry.Register_cases hr
      subst hst
      rcases hcase with ⟨_, hrr⟩ | ⟨_, _, _, hrr⟩
      · subst hrr
        exact hs
      · subst hrr
        intro id1 ref1 e hl hhas
        simp only [GoMap.gm_lookup_put] at hl
        split at hl
        · simp only [Option.some.injEq] at hl
          subst hl
          simp only [WorldRun.admits, decide_eq_true_eq] at hadm
          have hmem : e ∈ (s.heap ref.addr).components.keys :=
            (GoMap.gm_mem_keys _ _).mpr ((Storage.Has_eq_true_iff _ e).mp hhas)
          rw [hadm] at hmem
          exact absurd hmem (Finset.not_mem_empty e)
        · exact hs id1 ref1 e hl hhas
  | createEntity =>
    simp only [WorldRun.step, Option.some.injEq] at h
    subst h
    intro id ref e hl hhas
    exact List.mem_cons_of_mem _ (hs id ref e hl hhas)
  | destroyEntity order e =>
    simp only [WorldRun.step, Option.some.injEq] at h
    subst h
    simp only [WorldRun.admits, Bool.and_eq_true, decide_eq_true_eq] at hadm
    intro id ref e1 hl hhas
    have hp := World.DestroyEntity_registered s.world order s.heap e hadm.2 hl
    have hhas1 : ((s.world.DestroyEntity order s.heap e).2 ref.addr).Has e1 = true := hhas
    rw [hp, Storage.Has_Remove] at hhas1
    exact (List.mem_erase_of_ne (Ne.symm hhas1.1)).mpr (hs id ref e1 hl hhas1.2)
  | clear order =>
    simp only [WorldRun.step, Option.some.injEq] at h
    subst h
    simp only [WorldRun.admits, decide_eq_true_eq] at hadm
    intro id ref e hl hhas
    have hl1 : s.world.components.storages.lookup id = some ref := hl
    have hv : visits s.world.components.storages order ref.addr :=
      ⟨id, ref, rangeOrder_mem hadm hl1, hl1, rfl⟩
    have hempty : (s.world.Clear order s.heap).2 ref.addr = NewStorage :=
      (clear_loop s.world.components.storages order s.heap ref.addr).1 hv
    have hhas1 : ((s.world.Clear order s.heap).2 ref.addr).Has e = true := hhas
    rw [hempty, Storage.Has_NewStorage] at hhas1
    exact absurd hhas1 (by simp)
  | add id e v =>
    simp only [WorldRun.admits, Bool.and_eq_true, decide_eq_true_eq] at hadm
    simp only [WorldRun.step, World.GetStorage, ComponentRegistry.GetStorage] at h
    rcases hl0 : s.world.components.storages.lookup id with _ | ref0
    · simp only [hl0, Option.some.injEq] at h
      subst h
      exact hs
    · simp only [hl0] at h
      rcases hadd : (s.heap ref0.addr).Add e v with _ | st
      · simp [hadd] at h
      simp only [hadd, Option.some.injEq] at h
      subst h
      intro id1 ref1 e1 hl hhas
      have hhas1 : (Function.update s.heap ref0.addr st ref1.addr).Has e1 = true := hhas
      by_cases ha : ref1.addr = ref0.addr
      · rw [ha, Function.update_same, Storage.Has_Add hadd] at hhas1
        rcases hhas1 with rfl | hold
        · exact hadm.2
        · exact hs id1 ref1 e1 hl (by rw [ha]; exact hold)
      · rw [Function.update_noteq ha] at hhas1
        exact hs id1 ref1 e1 hl hhas1
  | remove id e =>
    simp only [WorldRun.step, World.GetStorage, ComponentRegistry.GetStorage] at h
    rcases hl0 : s.world.components.storages.lookup id with _ | ref0
    · simp only [hl0, Option.some.injEq] at h
      subst h
      exact hs
    · simp only [hl0, Option.some.injEq] at h
      subst h
      intro id1 ref1 e1 hl hhas
      have hhas1 : (Function.update s.heap ref0.addr ((s.heap ref0.addr).Remove e) ref1.addr).Has e1
          = true := hhas
      by_cases ha : ref1.addr = ref0.addr
      · rw [ha, Function.update_same, Storage.Has_Remove] at hhas1
        exact hs id1 ref1 e1 hl (by rw [ha]; exact hhas1.2)
      · rw [Function.update_noteq ha] at hhas1
        exact hs id1 ref1 e1 hl hhas1

theorem WorldRun.run_cons_some {D σ V : Type} {s s1 : WorldRun D σ V} {op : WorldOp V}
    {ops : List (WorldOp V)} (h : s.run (op :: ops) = some s1) :
    ∃ s2, s.admits op = true ∧ s.step op = some s2 ∧ s2.run ops = some s1 := by
  simp only [WorldRun.run] at h
  by_cases hadm : s.admits op = true
  · simp only [hadm, if_true] at h
    rcases hst : s.step op with _ | s2
    · simp [hst] at h
    · simp only [hst] at h
      exact ⟨s2, hadm, rfl, h⟩
  · simp [hadm] at h

theorem WorldRun.world_run_append {D σ V : Type} (ops₁ ops₂ : List (WorldOp V)) (s : WorldRun D σ V) :
    s.run (ops₁ ++ ops₂) = (s.run ops₁).bind (fun s1 => s1.run ops₂) := by
  induction ops₁ generalizing s with
  | nil => rfl
  | cons op ops ih =>
    simp only [List.cons_append, WorldRun.run]
    split
    · rcases s.step op with _ | s1
      · rfl
      · exact ih s1
    · rfl

theorem WorldRun.Clean.clean_run {D σ V : Type} (ops : List (WorldOp V)) {s s1 : WorldRun D σ V}
    (hs : s.Clean) (h : s.run ops = some s1) : s1.Clean := by
  induction ops generalizing s with
  | nil =>
    simp only [WorldRun.run, Option.some.injEq] at h
    subst h
    exact hs
  | cons op ops ih =>
    obtain ⟨s2, hadm, hst, hrest⟩ := WorldRun.run_cons_some h
    exact ih (hs.clean_step hadm hst) hrest

/-- What a step of a world does to its entity manager and the bookkeeping. -/
theorem WorldRun.toEMRun_step {D σ V : Type} {s s1 : WorldRun D σ V} {op : WorldOp V}
    (hadm : s.admits op = true) (h : s.step op = some s1) :
    s1.toEMRun = s.toEMRun ∨ s1.toEMRun = s.toEMRun.step .create ∨
      ∃ e, e ∈ s.live ∧ s1.toEMRun = s.toEMRun.step (.destroy e) := by
  cases op with
  | registerStorage storage =>
    simp only [WorldRun.step, World.RegisterStorage] at h
    rcases hr : s.world.components.Register storage with _ | ⟨id, r⟩
    · simp [hr] at h
    · simp only [hr, Option.some.injEq] at h
      subst h
      exact Or.inl rfl
  | createEntity =>
    simp only [WorldRun.step, Option.some.injEq] at h
    subst h
    exact Or.inr (Or.inl rfl)
  | destroyEntity order e =>
    simp only [WorldRun.step, Option.some.injEq] at h
    subst h
    simp only [WorldRun.admits, Bool.and_eq_true, decide_eq_true_eq] at hadm
    exact Or.inr (Or.inr ⟨e, hadm.1, rfl⟩)
  | clear order =>
    simp only [WorldRun.step, Option.some.injEq] at h
    subst h
    exact Or.inl rfl
  | add id e v =>
    simp only [WorldRun.step] at h
    rcases hl0 : s.world.GetStorage id with _ | ref0
    · simp only [hl0, Option.some.injEq] at h
      subst h
      exact Or.inl rfl
    · simp only [hl0] at h
      rcases hadd : (s.heap ref0.addr).Add e v with _ | st
      · simp [hadd] at h
      simp only [hadd, Option.some.injEq] at h
      subst h
      exact Or.inl rfl
  | remove id e =>
    simp only [WorldRun.step] at h
    rcases hl0 : s.world.GetStorage id with _ | ref0
    · simp only [hl0, Option.some.injEq] at h
      subst h
      exact Or.inl rfl
    · simp only [hl0, Option.some.injEq] at h
      subst h
      exact Or.inl rfl

theorem WorldRun.world_fresh_le_step {D σ V : Type} {s s1 : WorldRun D σ V} {op : WorldOp V}
    (hadm : s.admits op = true) (h : s.step op = some s1) : s.fresh ≤ s1.fresh := by
  have hfresh : ∀ t : WorldRun D σ V, t.fresh = t.toEMRun.fresh := fun _ => rfl
  rw [hfresh s, hfresh s1]
  rcases WorldRun.toEMRun_step hadm h with h1 | h1 | ⟨e, _, h1⟩
  · rw [h1]
  · rw [h1]; exact EMRun.em_fresh_le_step _ _
  · rw [h1]; exact EMRun.em_fresh_le_step _ _

theorem WorldRun.world_fresh_le_run {D σ V : Type} (ops : List (WorldOp V)) {s s1 : WorldRun D σ V}
    (h : s.run ops = some s1) : s.fresh ≤ s1.fresh := by
  induction ops generalizing s with
  | nil =>
    simp only [WorldRun.run, Option.some.injEq] at h
    subst h
    exact le_refl _
  | cons op ops ih =>
    obtain ⟨s2, hadm, hst, hrest⟩ := WorldRun.run_cons_some h
    exact le_trans (WorldRun.world_fresh_le_step hadm hst) (ih hrest)

theorem WorldRun.emInv_run {D σ V : Type} (ops : List (WorldOp V)) {s s1 : WorldRun D σ V}
    (hs : s.toEMRun.Inv) (h : s.run ops = some s1) (hf : s1.fresh < entityModulus) :
    s1.toEMRun.Inv := by
  induction ops generalizing s with
  | nil =>
    simp only [WorldRun.run, Option.some.injEq] at h
    subst h
    exact hs
  | cons op ops ih =>
    obtain ⟨s2, hadm, hst, hrest⟩ := WorldRun.run_cons_some h
    have hf2 : s2.toEMRun.fresh < entityModulus :=
      lt_of_le_of_lt (WorldRun.world_fresh_le_run ops hrest) hf
    refine ih ?_ hrest
    rcases WorldRun.toEMRun_step hadm hst with h1 | h1 | ⟨e, he, h1⟩
    · rw [h1]; exact hs
    · rw [h1] at hf2 ⊢
      exact hs.em_step .create (by simp) hf2
    · rw [h1] at hf2 ⊢
      refine hs.em_step (.destroy e) ?_ hf2
      intro e1 h2
      cases h2
      exact he

/-- C9, amended (no dangling component data on a reused id). In every world
state reached from `NewWorld` by `RegisterStorage`, `CreateEntity`,
`DestroyEntity`, `Clear` and `Add`/`Remove` on registered storages, provided
every storage is registered while empty, components are only added for live
entities and `DestroyEntity` is only applied to live entities: every
registered storage holds entries only for live entities; and, when fewer than
`2^64` calls of `CreateEntity` (the next one included) found the pool empty,
the entity that `CreateEntity` returns in this state, a recycled id included,
has `Has(e)` false on every registered storage at the moment it is returned. -/
theorem no_dangling_components {D σ V : Type} (heap : Heap V) (ops : List (WorldOp V))
    (s : WorldRun D σ V) (hrun : (WorldRun.start heap).run ops = some s) :
    (∀ (id : ComponentID) (ref : StorageRef) (e : Entity),
      s.world.components.storages.lookup id = some ref →
      (s.heap ref.addr).Has e = true → e ∈ s.live) ∧
    (s.freshAfterCreate < entityModulus →
      ∀ (id : ComponentID) (ref : StorageRef),
        s.world.components.storages.lookup id = some ref →
        (s.heap ref.addr).Has s.world.CreateEntity.1 = false) := by
  have hclean0 : (WorldRun.start heap : WorldRun D σ V).Clean := by
    intro id ref e hl _
    simp [WorldRun.start, NewWorld, NewComponentRegistry, GoMap.gm_lookup_make] at hl
  have hclean : s.Clean := hclean0.clean_run ops hrun
  refine ⟨hclean, ?_⟩
  intro hf id ref hl
  have hle : s.fresh ≤ s.freshAfterCreate := by
    simp only [WorldRun.freshAfterCreate]
    split <;> omega
  have hinv : s.toEMRun.Inv :=
    WorldRun.emInv_run ops (s := WorldRun.start heap) EMRun.em_inv_start hrun (lt_of_le_of_lt hle hf)
  have hnl : s.world.entities.Create.1 ∉ s.live := hinv.create_not_live hf
  have hfalse : (s.heap ref.addr).Has s.world.CreateEntity.1 = false := by
    by_contra hne
    have ht : (s.heap ref.addr).Has s.world.CreateEntity.1 = true := by simpa using hne
    exact hnl (hclean id ref _ hl ht)
  exact hfalse

/-- Witness for C9 (amended): after `sampleWorldOps` the next `CreateEntity`
returns the recycled id 1, for which no registered storage has an entry. -/
theorem no_dangling_components_witness :
    (WorldRun.start emptyHeap).run sampleWorldOps = some sampleWorldRun ∧
    sampleWorldRun.freshAfterCreate < entityModulus ∧
    sampleWorldRun.world.CreateEntity.1 = 1 ∧
    sampleWorldRun.live = [2] ∧
    (∀ (id : ComponentID) (ref : StorageRef),
      sampleWorldRun.world.components.storages.lookup id = some ref →
      (sampleWorldRun.heap ref.addr).Has sampleWorldRun.world.CreateEntity.1 = false) :=
  ⟨(Option.some_get _).symm, by decide, by decide, by decide,
    (no_dangling_components emptyHeap sampleWorldOps sampleWorldRun
      (Option.some_get _).symm).2 (by decide)⟩

/-- Repeated `CreateEntity` on a world whose pool is empty: the counter
advances modulo `2^64`; heap, registry and the live entities so far stay. -/
theorem WorldRun.createEntity_repeat {D σ V : Type} (n : Nat) (s : WorldRun D σ V)
    (hpool : s.world.entities.recycled = [])
    (hlt : s.world.entities.currentID < entityModulus) :
    ∃ s1, s.run (List.replicate n WorldOp.createEntity) = some s1 ∧
      s1.world.entities =
        { currentID := (s.world.entities.currentID + n) % entityModulus, recycled := [] } ∧
      s1.heap = s.heap ∧ s1.world.components = s.world.components ∧
      (∀ e, e ∈ s.live → e ∈ s1.live) := by
  induction n generalizing s with
  | zero =>
    refine ⟨s, rfl, ?_, rfl, rfl, fun _ h => h⟩
    rw [Nat.add_zero, Nat.mod_eq_of_lt hlt]
    cases hw : s.world.entities with
    | mk c pool =>
      rw [hw] at hpool
      simp only at hpool
      rw [hpool]
  | succ n ih =>
    have hem : s.world.entities = { currentID := s.world.entities.currentID, recycled := [] } := by
      cases hw : s.world.entities with
      | mk c pool =>
        rw [hw] at hpool
        simp only at hpool
        rw [hpool]
    have hcreate : s.world.entities.Create =
        ((s.world.entities.currentID + 1) % entityModulus,
          { currentID := (s.world.entities.currentID + 1) % entityModulus, recycled := [] }) := by
      rw [hem]
      exact EntityManager.Create_nil _
    have hpos : 0 < entityModulus := by norm_num [entityModulus]
    obtain ⟨s2, hst, hs2⟩ : ∃ s2, s.step WorldOp.createEntity = some s2 ∧
        s2 = { world := s.world.CreateEntity.2, heap := s.heap
               live := s.world.CreateEntity.1 :: s.live
               fresh := if s.world.entities.recycled.length > 0 then s.fresh else s.fresh + 1 } :=
      ⟨_, rfl, rfl⟩
    have he2 : s2.world.entities =
        { currentID := (s.world.entities.currentID + 1) % entityModulus, recycled := [] } := by
      rw [hs2]
      show s.world.entities.Create.2 = _
      rw [hcreate]
    obtain ⟨s1, hrun, hent, hheap, hcomp, hlive⟩ := ih s2 (by rw [he2])
      (by rw [he2]; exact Nat.mod_lt _ hpos)
    refine ⟨s1, ?_, ?_, ?_, ?_, ?_⟩
    · rw [List.replicate_succ, WorldRun.run]
      simp only [WorldRun.admits, if_true, hst]
      exact hrun
    · rw [hent, he2]
      have harith : ((s.world.entities.currentID + 1) % entityModulus + n) % entityModulus
          = (s.world.entities.currentID + (n + 1)) % entityModulus := by
        rw [Nat.mod_add_mod, Nat.add_assoc, Nat.add_comm 1 n]
      show ({ currentID := ((s.world.entities.currentID + 1) % entityModulus + n) % entityModulus,
              recycled := [] } : EntityManager) = _
      rw [harith]
    · rw [hheap, hs2]
    · rw [hcomp, hs2]
      rfl
    · intro e he
      apply hlive
      rw [hs2]
      exact List.mem_cons_of_mem _ he

/-- Counterexample to C9 as stated. Register a storage, create entity 1, give
it a component, and call `CreateEntity` `2^64 - 1` more times: all provisos
are met, the `uint64` counter has wrapped to 0, and the next `CreateEntity`
returns 1 again, an id that is live and has a component in the registered
storage at the moment it is returned. -/
theorem dangling_after_wrap :
    ∃ s : WorldRun Unit Unit String,
      (WorldRun.start emptyHeap).run overflowOps = some s ∧
      s.world.components.storages.lookup 0 = some samplePositions ∧
      s.world.CreateEntity.1 = 1 ∧ 1 ∈ s.live ∧
      (s.heap samplePositions.addr).Has s.world.CreateEntity.1 = true := by
  have h3 : (WorldRun.start emptyHeap).run
      [ .registerStorage (some samplePositions), .createEntity, .add 0 1 "e2" ]
        = some beforeOverflow := (Option.some_get _).symm
  obtain ⟨s, hrun, hent, hheap, hcomp, hlive⟩ :=
    WorldRun.createEntity_repeat (entityModulus - 1) beforeOverflow (by decide) (by decide)
  have hc : beforeOverflow.world.entities.currentID = 1 := by decide
  have hwrap : (1 + (entityModulus - 1)) % entityModulus = 0 := by norm_num [entityModulus]
  rw [hc, hwrap] at hent
  have hnext : s.world.CreateEntity.1 = 1 := by
    show s.world.entities.Create.1 = 1
    rw [hent, EntityManager.Create_nil]
    decide
  refine ⟨s, ?_, ?_, hnext, hlive 1 (by decide), ?_⟩
  · unfold overflowOps
    rw [WorldRun.world_run_append, h3, Option.some_bind]
    exact hrun
  · rw [hcomp]
    decide
  · rw [hnext, hheap]
    decide

/-! ## Storage: removal and upsert -/

theorem Storage.keys_Add {T : Type} {s s1 : Storage T} {e : Entity} {v : T}
    (h : s.Add e v = some s1) :
    s1.components.keys = Insert.insert e s.components.keys := by
  rw [(Storage.Add_some h).2]
  exact GoMap.gm_keys_put _ _ _

theorem Storage.Get_of_lookup {T : Type} [Inhabited T] (s : Storage T) (e : Entity) :
    (s.Get e).1 = match s.components.lookup e with
      | some v => (v, none)
      | none => (default, some { entity := e }) := by
  rcases hl : s.components.lookup e with _ | v <;> simp [Storage.Get, hl]

/-- C11 (Remove deletes only the given entity and is a no-op when absent). For
every state of a `Storage[T]` and every entity `e`: after `Remove(e)`,
`Has(e)` is false and `Get(e)` fails with the NotFound error for `e`; the
entry of every other entity is unchanged, as `Has` and `Get` see it; and if
`e` had no entry the storage is exactly unchanged, so that a second
`Remove(e)` changes nothing. -/
theorem remove_deletes_only {T : Type} [Inhabited T] (s : Storage T) (e : Entity) :
    (s.Remove e).Has e = false ∧
    ((s.Remove e).Get e).1 = (default, some { entity := e }) ∧
    (∀ e1, e1 ≠ e →
      (s.Remove e).components.lookup e1 = s.components.lookup e1 ∧
      (s.Remove e).Has e1 = s.Has e1 ∧ ((s.Remove e).Get e1).1 = (s.Get e1).1) ∧
    (s.Has e = false → s.Remove e = s) ∧
    (s.Remove e).Remove e = s.Remove e := by
  have hother : ∀ e1, e1 ≠ e →
      (s.Remove e).components.lookup e1 = s.components.lookup e1 := by
    intro e1 hne
    rw [Storage.lookup_Remove, if_neg (Ne.symm hne)]
  refine ⟨s.Has_Remove_self e, ?_, ?_, s.Remove_of_not_Has e, s.Remove_Remove e⟩
  · rw [Storage.Get_of_lookup, Storage.lookup_Remove, if_pos rfl]
  · intro e1 hne
    refine ⟨hother e1 hne, ?_, ?_⟩
    · simp only [Storage.Has, hother e1 hne]
    · rw [Storage.Get_of_lookup, Storage.Get_of_lookup, hother e1 hne]

/-- Counterexample to C12 as stated. On the zero value of `Storage[T]`, a
state in which entity 3 has no entry and the number of entries is 0, the call
`Add(3, 7)` panics on the nil map: it yields no storage, and no entry is
added. -/
theorem add_on_zero_storage_adds_nothing :
    (Storage.zero : Storage Nat).Has 3 = false ∧
    (Storage.zero : Storage Nat).components.keys.card = 0 ∧
    (Storage.zero : Storage Nat).Add 3 7 = none ∧
    ¬ ∃ s1, (Storage.zero : Storage Nat).Add 3 7 = some s1 ∧
      s1.components.keys.card = (Storage.zero : Storage Nat).components.keys.card + 1 :=
  ⟨rfl, rfl, rfl, fun ⟨_, h, _⟩ => Option.noConfusion h⟩

/-- C12, amended (Add is an upsert that touches one key). For every state of
a `Storage[T]` whose map is not nil (every storage made by `NewStorage`),
every entity `e` and all values `v1`, `v2`: `Add(e, v1)` and then
`Add(e, v2)` return and yield the same storage as `Add(e, v2)` alone, and
`Get(e)` then returns `v2`; after `Add(e, v1)`, `Has` and `Get` answer as
before for every other entity; and the number of entries has grown by one if
`e` was absent and by zero if `e` was present. On the zero value of the
struct, whose map is nil, every `Add` panics. -/
theorem add_is_upsert {T : Type} [Inhabited T] (s : Storage T) (e : Entity) (v1 v2 : T) :
    (s.components.isNil = false →
      ∃ s1 s2, s.Add e v1 = some s1 ∧ s1.Add e v2 = some s2 ∧ s.Add e v2 = some s2 ∧
        (s2.Get e).1 = (v2, none) ∧
        (∀ e1 : Entity, e1 ≠ e →
          s1.Has e1 = s.Has e1 ∧ (s1.Get e1).1 = (s.Get e1).1) ∧
        (s.Has e = false → s1.components.keys.card = s.components.keys.card + 1) ∧
        (s.Has e = true → s1.components.keys.card = s.components.keys.card)) ∧
    (s.components.isNil = true → ∀ v : T, s.Add e v = none) := by
  refine ⟨?_, fun hnil v => Storage.Add_of_nil s e v hnil⟩
  intro hmade
  have h1 := Storage.Add_of_made s e v1 hmade
  have h2 := Storage.Add_of_made s e v2 hmade
  have h12 := Storage.Add_of_made { components := s.components.put e v1 } e v2 rfl
  have hother : ∀ e1 : Entity, e1 ≠ e →
      (s.components.put e v1).lookup e1 = s.components.lookup e1 := by
    intro e1 hne
    rw [GoMap.gm_lookup_put, if_neg (Ne.symm hne)]
  have hsame : ({ components := (s.components.put e v1).put e v2 } : Storage T)
      = { components := s.components.put e v2 } := by
    refine Storage.ext_lookup ?_ ?_
    · rfl
    intro x
    show ((s.components.put e v1).put e v2).lookup x = (s.components.put e v2).lookup x
    simp only [GoMap.gm_lookup_put]
    split <;> rfl
  refine ⟨_, _, h1, h12.trans (congrArg some hsame), h2, ?_, ?_, ?_, ?_⟩
  · rw [Storage.Get_of_lookup, Storage.lookup_Add h2, if_pos rfl]
  · intro e1 hne
    refine ⟨?_, ?_⟩
    · simp only [Storage.Has, hother e1 hne]
    · rw [Storage.Get_of_lookup, Storage.Get_of_lookup]
      simp only [hother e1 hne]
  · intro habs
    have hnot : e ∉ s.components.keys := by
      rw [GoMap.gm_mem_keys, ← Storage.Has_eq_true_iff, habs]
      simp
    rw [Storage.keys_Add h1, Finset.card_insert_of_not_mem hnot]
  · intro hpres
    have hmem : e ∈ s.components.keys := by
      rw [GoMap.gm_mem_keys, ← Storage.Has_eq_true_iff, hpres]
    rw [Storage.keys_Add h1, Finset.card_insert_of_mem hmem]

/-! ## Entity manager: unvalidated destroy -/

/-- C14 (unvalidated destroy is accepted silently and can break uniqueness).
`Destroy` is defined on every manager and every id, appends its argument to
the pool and leaves the counter alone. From `NewEntityManager`, after
`Create` (gives 1), `Destroy(1)`, `Destroy(1)`, the next two calls of `Create`
both return 1; and after `Destroy(2)` of the never-issued id 2 the next three
calls of `Create` return 2, 1, 2: in both runs two ids returned with no
`Destroy` between them are equal. -/
theorem unvalidated_destroy_breaks_uniqueness :
    (∀ (em : EntityManager) (e : Entity),
      (em.Destroy e).recycled = em.recycled ++ [e] ∧
      (em.Destroy e).currentID = em.currentID) ∧
    (NewEntityManager.Create.1 = 1 ∧
      (EntityManager.createMany 2 ((NewEntityManager.Create.2.Destroy 1).Destroy 1)).1
        = [1, 1]) ∧
    (EntityManager.createMany 3 (NewEntityManager.Destroy 2)).1 = [2, 1, 2] :=
  ⟨fun _ _ => ⟨rfl, rfl⟩, by decide, by decide⟩

/-! ## Registry: when Register returns -/

/-- Counterexample to C15 as stated. On a new registry, `Register` panics on
the nil interface value, and it panics on a value of the defined struct type
`game.Flags`, a concrete type that is not a pointer and can implement
`ComponentStorage` with value receivers. On the zero value of
`ComponentRegistry`, whose maps are nil, it panics on a `*Storage[T]`. -/
theorem register_panics :
    NewComponentRegistry.Register none = none ∧
    (GoType.defined "game.Flags" (.base "struct")).canImplement = true ∧
    NewComponentRegistry.Register
      (some { dynType := .defined "game.Flags" (.base "struct"), addr := 0 }) = none ∧
    ComponentRegistry.zero.Register (some samplePositions) = none := by
  decide

/-- C15, amended (when Register returns). For every registry state and every
value of the interface type `ComponentStorage`: `Register` returns a
`ComponentID` exactly when the value is not nil, its dynamic type has an
element type (kind pointer, array, chan, map or slice), and that element type
is already filed or neither map of the registry is nil; it panics otherwise.
So on every registry whose maps are not nil, as is every registry reached from
`NewComponentRegistry` by calls of `Register` and `Clear`, it returns exactly
for the values that are not nil and whose dynamic type has an element type,
for every `*Storage[T]` and every other pointer. The id it returns is the one
filed for the element type or else `nextID`. -/
theorem register_returns_iff (r : ComponentRegistry) (storage : ComponentStorage) :
    ((r.Register storage).isSome = true ↔
      ∃ k, typeKey storage = some k ∧
        ((r.components.lookup k).isSome = true ∨
          (r.components.isNil = false ∧ r.storages.isNil = false))) ∧
    (r.components.isNil = false ∧ r.storages.isNil = false →
      ((r.Register storage).isSome = true ↔ (typeKey storage).isSome = true) ∧
      (∀ (T : GoType) (addr : Nat),
        (r.Register (some { dynType := .ptr (.storage T), addr := addr })).isSome = true) ∧
      (∀ (t : GoType) (addr : Nat),
        (r.Register (some { dynType := .ptr t, addr := addr })).isSome = true)) ∧
    (∀ (ops : List RegOp) (s : RegRun Unit), (RegRun.start emptyHeap).run ops = some s →
      s.reg.components.isNil = false ∧ s.reg.storages.isNil = false) ∧
    (∀ id r1, r.Register storage = some (id, r1) →
      (∃ k, typeKey storage = some k ∧ r.components.lookup k = some id) ∨ id = r.nextID) := by
  have hiff : (r.Register storage).isSome = true ↔
      ∃ k, typeKey storage = some k ∧
        ((r.components.lookup k).isSome = true ∨
          (r.components.isNil = false ∧ r.storages.isNil = false)) := by
    rcases storage with _ | ref
    · simp [ComponentRegistry.Register, typeKey, reflectTypeOf]
    · rcases hk : ref.dynType.Elem with _ | k
      · simp [ComponentRegistry.Register, typeKey, reflectTypeOf, hk]
      · have htk : typeKey (some ref) = some k := by simp [typeKey, reflectTypeOf, hk]
        rw [htk]
        rcases hl : r.components.lookup k with _ | id
        · by_cases hmade : r.components.isNil = false ∧ r.storages.isNil = false
          · rw [ComponentRegistry.Register_new r ref k hk hl hmade]
            simp [hl, hmade]
          · rw [ComponentRegistry.Register_nil r ref k hk hl hmade]
            constructor
            · intro h
              exact absurd h (by simp)
            · rintro ⟨k1, hk1, hor⟩
              simp only [Option.some.injEq] at hk1
              subst hk1
              rcases hor with h | h
              · rw [hl] at h
                exact absurd h (by simp)
              · exact absurd h hmade
        · rw [ComponentRegistry.Register_known r ref k id hk hl]
          simp [hl]
  refine ⟨hiff, ?_, fun ops s hrun => RegRun.made_run ops hrun ⟨rfl, rfl⟩, ?_⟩
  · intro hmade
    have hptr : ∀ (t : GoType) (addr : Nat),
        (r.Register (some { dynType := .ptr t, addr := addr })).isSome = true := by
      intro t addr
      rcases hl : r.components.lookup t with _ | id
      · rw [ComponentRegistry.Register_new r { dynType := .ptr t, addr := addr } t rfl hl hmade]
        rfl
      · rw [ComponentRegistry.Register_known r { dynType := .ptr t, addr := addr } t id rfl hl]
        rfl
    refine ⟨?_, fun T addr => hptr _ addr, hptr⟩
    rw [hiff]
    constructor
    · rintro ⟨k, hk, _⟩
      rw [hk]
      rfl
    · intro h
      rcases hk : typeKey storage with _ | k
      · rw [hk] at h
        exact absurd h (by simp)
      · exact ⟨k, rfl, Or.inr hmade⟩
  · intro id r1 h
    obtain ⟨ref, k, hs, hk, hcase⟩ := ComponentRegistry.Register_cases h
    subst hs
    have htk : typeKey (some ref) = some k := by simp [typeKey, reflectTypeOf, hk]
    rcases hcase with ⟨hl, _⟩ | ⟨_, hid, _⟩
    · exact Or.inl ⟨k, htk, hl⟩
    · exact Or.inr hid

/-! ## World: Clear -/

theorem EMLog.log_inv_start : EMLog.start.Inv := by
  constructor <;> simp [EMLog.start, NewEntityManager]

theorem EMLog.log_fresh_le_step (r : EMLog) (op : EMOp) : r.fresh ≤ (r.step op).fresh := by
  cases op with
  | create => simp only [EMLog.step]; split <;> omega
  | destroy e => simp [EMLog.step]

theorem EMLog.log_run_append (r : EMLog) (ops₁ ops₂ : List EMOp) :
    r.run (ops₁ ++ ops₂) = (r.run ops₁).run ops₂ := by
  simp [EMLog.run, List.foldl_append]

theorem EMLog.log_fresh_le_run (ops : List EMOp) (r : EMLog) : r.fresh ≤ (r.run ops).fresh := by
  induction ops generalizing r with
  | nil => exact le_refl _
  | cons op ops ih => exact le_trans (r.log_fresh_le_step op) (ih (r.step op))

theorem EMLog.permitted_append (ops₁ ops₂ : List EMOp) (r : EMLog)
    (h : r.permitted (ops₁ ++ ops₂) = true) :
    r.permitted ops₁ = true ∧ (r.run ops₁).permitted ops₂ = true := by
  induction ops₁ generalizing r with
  | nil => exact ⟨rfl, h⟩
  | cons op ops ih =>
    cases op with
    | create => exact ih _ h
    | destroy e =>
      simp only [List.cons_append, EMLog.permitted, Bool.and_eq_true] at h ⊢
      exact ⟨⟨h.1, (ih _ h.2).1⟩, (ih _ h.2).2⟩

theorem EMLog.Inv.log_step {r : EMLog} (hr : r.Inv) (op : EMOp)
    (hd : ∀ e, op = .destroy e → e ∈ r.issued)
    (hf : (r.step op).fresh < entityModulus) : (r.step op).Inv := by
  cases op with
  | create =>
    obtain ⟨em, issued, fresh⟩ := r
    obtain ⟨c, pool⟩ := em
    rcases List.eq_nil_or_concat pool with hp | ⟨l, x, hp⟩ <;>
      try rw [List.concat_eq_append] at hp
    · subst hp
      have hc : (c : ℕ) = fresh := hr.counter
      subst hc
      simp only [EMLog.step, List.length_nil, gt_iff_lt, lt_self_iff_false, if_false] at hf
      have hmod : (c + 1) % entityModulus = c + 1 := Nat.mod_eq_of_lt hf
      simp only [EMLog.step, EntityManager.Create_nil, hmod]
      refine ⟨by simp, ?_, Or.inr (List.mem_cons_self _ _)⟩
      intro y hy
      simp only [List.mem_cons, List.not_mem_nil, or_false] at hy
      rcases hy with rfl | hy
      · exact ⟨Nat.succ_le_succ (Nat.zero_le c), le_refl _⟩
      · have hb : 1 ≤ (y : ℕ) ∧ (y : ℕ) ≤ c := hr.bound y (Or.inl hy)
        exact ⟨hb.1, Nat.le_succ_of_le hb.2⟩
    · subst hp
      simp only [EMLog.step, EntityManager.Create_snoc]
      refine ⟨?_, ?_, ?_⟩
      · have := hr.counter
        simpa using this
      · intro y hy
        apply hr.bound y
        simp only [List.mem_cons] at hy
        rcases hy with (rfl | hy) | hy
        · exact Or.inr (by simp)
        · exact Or.inl hy
        · exact Or.inr (by simp [hy])
      · rcases hr.top with h0 | hmem
        · exact Or.inl h0
        · exact Or.inr (List.mem_cons_of_mem _ hmem)
  | destroy e =>
    have he := hd e rfl
    refine ⟨hr.counter, ?_, hr.top⟩
    intro y hy
    simp only [EMLog.step, EntityManager.Destroy, List.mem_append, List.mem_singleton] at hy ⊢
    rcases hy with hy | hy | rfl
    · exact hr.bound y (Or.inl hy)
    · exact hr.bound y (Or.inr hy)
    · exact hr.bound y (Or.inl he)

theorem EMLog.Inv.log_run (ops : List EMOp) {r : EMLog} (hr : r.Inv)
    (hd : r.permitted ops = true) (hf : (r.run ops).fresh < entityModulus) :
    (r.run ops).Inv := by
  induction ops generalizing r with
  | nil => exact hr
  | cons op ops ih =>
    have hrun : r.run (op :: ops) = (r.step op).run ops := rfl
    rw [hrun] at hf ⊢
    have hf1 : (r.step op).fresh < entityModulus :=
      lt_of_le_of_lt (EMLog.log_fresh_le_run ops (r.step op)) hf
    cases op with
    | create => exact ih (hr.log_step .create (by simp) hf1) hd hf
    | destroy e =>
      simp only [EMLog.permitted, Bool.and_eq_true, decide_eq_true_eq] at hd
      refine ih (hr.log_step (.destroy e) ?_ hf1) hd.2 hf
      intro e1 h1
      cases h1
      exact hd.1

theorem maxIssued_le (ids : List Entity) (c : ℕ) (h : ∀ x, x ∈ ids → x ≤ c) :
    maxIssued ids ≤ c := by
  induction ids with
  | nil => exact Nat.zero_le c
  | cons a rest ih =>
    show max a (maxIssued rest) ≤ c
    exact max_le (h a (List.mem_cons_self _ _)) (ih (fun x hx => h x (List.mem_cons_of_mem _ hx)))

theorem le_maxIssued (ids : List Entity) (c : ℕ) (h : c ∈ ids) : c ≤ maxIssued ids := by
  induction ids with
  | nil => exact absurd h (List.not_mem_nil _)
  | cons a rest ih =>
    show c ≤ max a (maxIssued rest)
    rcases List.mem_cons.mp h with rfl | h
    · exact le_max_left _ _
    · exact le_trans (ih h) (le_max_right _ _)

theorem EMLog.Inv.counter_eq_max {r : EMLog} (hr : r.Inv) :
    r.em.currentID = maxIssued r.issued := by
  apply le_antisymm
  · rcases hr.top with h0 | hmem
    · rw [h0]; exact Nat.zero_le _
    · exact le_maxIssued _ _ hmem
  · exact maxIssued_le _ _ (fun x hx => (hr.bound x (Or.inl hx)).2)

/-- C17 (the counter is the highest id ever issued and 0 is never issued).
Take any sequence of `Create` and `Destroy` calls on a manager made by
`NewEntityManager` in which every `Destroy` is applied to an id that `Create`
has returned before (live or not) and in which fewer than `2^64` calls of
`Create` find the pool empty. Then after every initial part of the sequence
`currentID` equals the maximum id ever returned by `Create` (0 if none),
equals the number of `Create` calls that found the pool empty, and every id
returned so far lies in `1..currentID`; `currentID` never decreases from one
initial part to a longer one; every id returned by `Create` lies between 1 and
the counter after the call, so it is not 0; and `Destroy` leaves `currentID`
unchanged. -/
theorem counter_is_highest_issued (ops : List EMOp)
    (hd : EMLog.start.permitted ops = true)
    (hf : (EMLog.start.run ops).fresh < entityModulus) :
    (∀ pre post, ops = pre ++ post →
      (EMLog.start.run pre).em.currentID = maxIssued (EMLog.start.run pre).issued ∧
      (EMLog.start.run pre).em.currentID = (EMLog.start.run pre).fresh ∧
      (∀ x, x ∈ (EMLog.start.run pre).issued →
        1 ≤ x ∧ x ≤ (EMLog.start.run pre).em.currentID)) ∧
    (∀ pre mid post, ops = pre ++ mid ++ post →
      (EMLog.start.run pre).em.currentID ≤ (EMLog.start.run (pre ++ mid)).em.currentID) ∧
    (∀ pre post, ops = pre ++ EMOp.create :: post →
      1 ≤ (EMLog.start.run pre).em.Create.1 ∧
      (EMLog.start.run pre).em.Create.1 ≤ (EMLog.start.run pre).em.Create.2.currentID ∧
      (EMLog.start.run pre).em.Create.1 ≠ 0) ∧
    (∀ (em : EntityManager) (e : Entity), (em.Destroy e).currentID = em.currentID) := by
  have key : ∀ pre post, ops = pre ++ post → (EMLog.start.run pre).Inv := by
    intro pre post h
    subst h
    have hle : (EMLog.start.run pre).fresh ≤ (EMLog.start.run (pre ++ post)).fresh := by
      rw [EMLog.log_run_append]
      exact EMLog.log_fresh_le_run post _
    exact EMLog.log_inv_start.log_run pre (EMLog.permitted_append pre post _ hd).1
      (lt_of_le_of_lt hle hf)
  refine ⟨?_, ?_, ?_, fun _ _ => rfl⟩
  · intro pre post h
    have hinv := key pre post h
    exact ⟨hinv.counter_eq_max, hinv.counter, fun x hx => hinv.bound x (Or.inl hx)⟩
  · intro pre mid post h
    have h1 := key pre (mid ++ post) (by rw [h, List.append_assoc])
    have h2 := key (pre ++ mid) post h
    have hle : (EMLog.start.run pre).fresh ≤ (EMLog.start.run (pre ++ mid)).fresh := by
      rw [EMLog.log_run_append]
      exact EMLog.log_fresh_le_run mid _
    have e1 : (EMLog.start.run pre).em.currentID = (EMLog.start.run pre).fresh := h1.counter
    have e2 : (EMLog.start.run (pre ++ mid)).em.currentID
        = (EMLog.start.run (pre ++ mid)).fresh := h2.counter
    rw [e1, e2]
    exact hle
  · intro pre post h
    have h1 : ops = (pre ++ [EMOp.create]) ++ post := by simp [h]
    have hnext := key (pre ++ [EMOp.create]) post h1
    have hrun : EMLog.start.run (pre ++ [EMOp.create]) = (EMLog.start.run pre).step .create := by
      rw [EMLog.log_run_append]
      rfl
    rw [hrun] at hnext
    have hb : 1 ≤ (EMLog.start.run pre).em.Create.1 ∧
        (EMLog.start.run pre).em.Create.1 ≤ (EMLog.start.run pre).em.Create.2.currentID :=
      hnext.bound _ (Or.inl (List.mem_cons_self _ _))
    exact ⟨hb.1, hb.2, Nat.pos_iff_ne_zero.mp hb.1⟩

/-- Witness for C17: `Create`, `Create`, `Destroy(1)`, `Destroy(1)`, `Create`,
`Create`, `Create`, with a second destroy of an id that is no longer live. -/
theorem counter_is_highest_issued_witness :
    EMLog.start.permitted
        [.create, .create, .destroy 1, .destroy 1, .create, .create, .create] = true ∧
      (EMLog.start.run
        [.create, .create, .destroy 1, .destroy 1, .create, .create, .create]).fresh
          < entityModulus ∧
      (EMLog.start.run
        [.create, .create, .destroy 1, .destroy 1, .create, .create, .create]).issued
          = [3, 1, 1, 2, 1] ∧
      (EMLog.start.run
        [.create, .create, .destroy 1, .destroy 1, .create, .create, .create]).em.currentID
          = maxIssued (EMLog.start.run
        [.create, .create, .destroy 1, .destroy 1, .create, .create, .create]).issued :=
  ⟨by decide, by decide, by decide,
    ((counter_is_highest_issued
      [.create, .create, .destroy 1, .destroy 1, .create, .create, .create]
      (by decide) (by decide)).1
      [.create, .create, .destroy 1, .destroy 1, .create, .create, .create] [] (by simp)).1⟩

/-! ## Chess: the generated moves -/

theorem isValidPosition_iff (pos : Position) :
    isValidPosition pos = true ↔ 0 ≤ pos.X ∧ pos.X < 8 ∧ 0 ≤ pos.Y ∧ pos.Y < 8 := by
  simp only [isValidPosition, Bool.and_eq_true, decide_eq_true_eq, ge_iff_le]
  constructor
  · rintro ⟨⟨⟨h1, h2⟩, h3⟩, h4⟩
    exact ⟨h1, h2, h3, h4⟩
  · rintro ⟨h1, h2, h3, h4⟩
    exact ⟨⟨⟨h1, h2⟩, h3⟩, h4⟩

theorem slide_valid (pos : PositionComponent) (directions : List Position) (m : Position)
    (h : m ∈ slide pos directions) : isValidPosition m = true := by
  simp only [slide, List.mem_flatMap, List.mem_filter] at h
  obtain ⟨_, _, _, hv⟩ := h
  exact hv

theorem stepOnce_valid (pos : PositionComponent) (directions : List Position) (m : Position)
    (h : m ∈ stepOnce pos directions) : isValidPosition m = true := by
  simp only [stepOnce, List.mem_filter] at h
  exact h.2

theorem slide_append (pos : PositionComponent) (d₁ d₂ : List Position) :
    slide pos (d₁ ++ d₂) = slide pos d₁ ++ slide pos d₂ := by
  simp only [slide, List.flatMap_append]

/-- The shape of the pawn case: the second move is only appended after the
first has been found valid. -/
theorem pawn_shape_valid (newPos second m : Position) (start : Prop) [Decidable start]
    (h : m ∈ (if isValidPosition newPos = true then
      (if start then [newPos, second] else [newPos]) else []))
    (hsecond : isValidPosition newPos = true → start → isValidPosition second = true) :
    isValidPosition m = true := by
  by_cases hnew : isValidPosition newPos = true
  · rw [if_pos hnew] at h
    by_cases hstart : start
    · rw [if_pos hstart] at h
      simp only [List.mem_cons, List.mem_singleton, List.not_mem_nil, or_false] at h
      rcases h with rfl | rfl
      · exact hnew
      · exact hsecond hnew hstart
    · rw [if_neg hstart] at h
      simp only [List.mem_singleton] at h
      rw [h]
      exact hnew
  · rw [if_neg hnew] at h
    exact absurd h (List.not_mem_nil _)

/-- Every move that `calculatePossibleMoves` returns is a valid position. -/
theorem calculatePossibleMoves_valid (piece : PieceComponent) (pos : PositionComponent)
    (m : Position) (h : m ∈ calculatePossibleMoves piece pos) : isValidPosition m = true := by
  unfold calculatePossibleMoves at h
  by_cases hP : piece.Typ = Pawn
  · rw [if_pos hP] at h
    dsimp only at h
    refine pawn_shape_valid _ _ m _ h ?_
    intro hnew hstart
    rw [isValidPosition_iff] at hnew ⊢
    dsimp only at hnew ⊢
    refine ⟨hnew.1, hnew.2.1, ?_⟩
    rcases hstart with ⟨hc, hy⟩ | ⟨hc, hy⟩
    · rw [hc, hy]
      decide
    · rw [hc, hy]
      decide
  · rw [if_neg hP] at h
    by_cases hK : piece.Typ = Knight
    · rw [if_pos hK] at h
      exact (List.mem_filter.mp h).2
    · rw [if_neg hK] at h
      by_cases hB : piece.Typ = Bishop
      · rw [if_pos hB] at h
        exact slide_valid _ _ _ h
      · rw [if_neg hB] at h
        by_cases hR : piece.Typ = Rook
        · rw [if_pos hR] at h
          exact slide_valid _ _ _ h
        · rw [if_neg hR] at h
          by_cases hQ : piece.Typ = Queen
          · rw [if_pos hQ] at h
            exact slide_valid _ _ _ h
          · rw [if_neg hQ] at h
            by_cases hKi : piece.Typ = King
            · rw [if_pos hKi] at h
              exact stepOnce_valid _ _ _ h
            · rw [if_neg hKi] at h
              exact absurd h (List.not_mem_nil _)

/-- C18 (every generated move is on the board). For every `PieceComponent`,
whatever its piece type and colour values, and every `PositionComponent`, on
the board or off it: every position in `calculatePossibleMoves(piece, pos)`
satisfies `isValidPosition`, that is `0 <= X < 8` and `0 <= Y < 8`, the
pawn's two-square move included; so `Y` and `X` of a possible move are in
range as indices of the 8 by 8 board of the renderer. -/
theorem moves_on_board (piece : PieceComponent) (pos : PositionComponent) :
    (calculatePossibleMoves piece pos).all isValidPosition = true ∧
    (∀ m, m ∈ calculatePossibleMoves piece pos →
      0 ≤ m.X ∧ m.X < 8 ∧ 0 ≤ m.Y ∧ m.Y < 8 ∧ m.Y.toNat < 8 ∧ m.X.toNat < 8) := by
  refine ⟨?_, ?_⟩
  · rw [List.all_eq_true]
    exact fun m hm => calculatePossibleMoves_valid piece pos m hm
  · intro m hm
    have hv := (isValidPosition_iff m).mp (calculatePossibleMoves_valid piece pos m hm)
    refine ⟨hv.1, hv.2.1, hv.2.2.1, hv.2.2.2, ?_, ?_⟩ <;> omega

/-- C20 (the queen combines rook and bishop moves). For every colour value
and every position, `calculatePossibleMoves` of the queen is the list of the
rook's moves followed by the list of the bishop's moves. -/
theorem queen_is_rook_then_bishop (c : Color) (p : PositionComponent) :
    calculatePossibleMoves { Typ := Queen, Color := c } p =
      calculatePossibleMoves { Typ := Rook, Color := c } p ++
        calculatePossibleMoves { Typ := Bishop, Color := c } p := by
  have hq : calculatePossibleMoves { Typ := Queen, Color := c } p =
      slide p ([ { X := 0, Y := 1 }, { X := 0, Y := -1 }, { X := 1, Y := 0 }, { X := -1, Y := 0 } ] ++
        [ { X := 1, Y := 1 }, { X := 1, Y := -1 }, { X := -1, Y := 1 }, { X := -1, Y := -1 } ]) := by
    simp [calculatePossibleMoves, Queen, Pawn, Knight, Bishop, Rook]
  have hr : calculatePossibleMoves { Typ := Rook, Color := c } p =
      slide p [ { X := 0, Y := 1 }, { X := 0, Y := -1 }, { X := 1, Y := 0 }, { X := -1, Y := 0 } ] := by
    simp [calculatePossibleMoves, Pawn, Knight, Bishop, Rook]
  have hb : calculatePossibleMoves { Typ := Bishop, Color := c } p =
      slide p [ { X := 1, Y := 1 }, { X := 1, Y := -1 }, { X := -1, Y := 1 }, { X := -1, Y := -1 } ] := by
    simp [calculatePossibleMoves, Pawn, Knight, Bishop]
  rw [hq, hr, hb, slide_append]

/-! ## Chess: parsing a coordinate -/

theorem parsePosition_pair (b0 b1 : Byte) :
    parsePosition [b0, b1] =
      { X := ((b0.val + 256 - 97) % 256 : ℕ), Y := ((b1.val + 256 - 49) % 256 : ℕ) } := by
  simp [parsePosition, subByte]

theorem parsePosition_of_length_ne (s : List Byte) (h : s.length ≠ 2) :
    parsePosition s = { X := -1, Y := -1 } := by
  simp [parsePosition, h]

theorem isValidPosition_parse_pair (b0 b1 : Byte) :
    isValidPosition (parsePosition [b0, b1]) = true ↔
      97 ≤ b0.val ∧ b0.val ≤ 104 ∧ 49 ≤ b1.val ∧ b1.val ≤ 56 := by
  rw [parsePosition_pair, isValidPosition_iff]
  have h0 := b0.isLt
  have h1 := b1.isLt
  dsimp only
  constructor
  · rintro ⟨_, hx, _, hy⟩
    omega
  · intro h
    omega

/-- C19 (coordinate parsing accepts exactly the 64 squares). For every string
`s`, as the list of its bytes: `isValidPosition(parsePosition(s))` holds if and
only if `s` is exactly two bytes long with the first byte in `a..h` and the
second in `1..8`; in that case `parsePosition(s)` is the position with
`X = s[0] - 'a'` and `Y = s[1] - '1'`; a first byte below `a` or a second
byte below `1` wraps around in the 8-bit subtraction to a value of at least 8.
Examples: "e2" gives (4,1), "e4" gives (4,3). -/
theorem parse_accepts_64_squares (s : List Byte) :
    (isValidPosition (parsePosition s) = true ↔
      ∃ b0 b1 : Byte, s = [b0, b1] ∧ 'a'.toNat ≤ b0.val ∧ b0.val ≤ 'h'.toNat ∧
        '1'.toNat ≤ b1.val ∧ b1.val ≤ '8'.toNat) ∧
    (∀ b0 b1 : Byte, s = [b0, b1] → 'a'.toNat ≤ b0.val → b0.val ≤ 'h'.toNat →
      '1'.toNat ≤ b1.val → b1.val ≤ '8'.toNat →
      parsePosition s = { X := (b0.val : Int) - 'a'.toNat, Y := (b1.val : Int) - '1'.toNat }) ∧
    (∀ b0 b1 : Byte, s = [b0, b1] →
      (b0.val < 'a'.toNat → 8 ≤ (parsePosition s).X) ∧
      (b1.val < '1'.toNat → 8 ≤ (parsePosition s).Y)) ∧
    (parsePosition [asciiByte 'e', asciiByte '2'] = { X := 4, Y := 1 } ∧
      parsePosition [asciiByte 'e', asciiByte '4'] = { X := 4, Y := 3 }) := by
  have ha : 'a'.toNat = 97 := rfl
  have hh : 'h'.toNat = 104 := rfl
  have h1 : '1'.toNat = 49 := rfl
  have h8 : '8'.toNat = 56 := rfl
  rw [ha, hh, h1, h8]
  refine ⟨?_, ?_, ?_, by decide⟩
  · constructor
    · intro hv
      by_cases hlen : s.length = 2
      · match s, hlen with
        | [b0, b1], _ =>
          exact ⟨b0, b1, rfl, (isValidPosition_parse_pair b0 b1).mp hv⟩
      · rw [parsePosition_of_length_ne s hlen] at hv
        exact absurd hv (by decide)
    · rintro ⟨b0, b1, rfl, h⟩
      exact (isValidPosition_parse_pair b0 b1).mpr h
  · rintro b0 b1 rfl h97 h104 h49 h56
    rw [parsePosition_pair]
    have e0 : (b0.val + 256 - 97) % 256 = b0.val - 97 := by omega
    have e1 : (b1.val + 256 - 49) % 256 = b1.val - 49 := by omega
    rw [e0, e1]
    congr 1 <;> omega
  · rintro b0 b1 rfl
    rw [parsePosition_pair]
    have hb0 := b0.isLt
    have hb1 := b1.isLt
    dsimp only
    constructor <;> intro h <;> omega

/-! ## Chess: the movement system -/

end Ecs
